import Mathlib

/-!
# Verification of the dependency-radar aggregation engine

A shallow embedding, in Lean 4, of the dependency-graph aggregation and
classification engine of the `dependency-radar` repository
(`src/aggregator.ts`, `src/cli.ts`, and the import-graph runner), together
with proofs of the testable properties stated in its specification.

Modelling conventions:
* JavaScript `Map`s and plain objects used as string-keyed dictionaries are
  embedded as association lists (`List (String × α)`) with first-match
  lookup; `Map.set` replaces the first binding in place (preserving
  insertion order, as V8 does) and appends otherwise.
* JavaScript `Set<string>` values are embedded as duplicate-free lists in
  insertion order (`addUnique`).
* Truthiness tests on strings (`s ||`, `if (s)`) are embedded via
  `truthy : Option String → Bool`, which is false exactly for a missing
  value and for the empty string, matching JavaScript falsiness for the
  string-or-undefined values that occur in the sources.
* External collaborators (the filesystem, the `path` module, the platform
  built-in module list, the license / maintenance / package-insight
  lookups) are parameters of the embedded functions, exactly as they are
  opaque inputs of the original code.
-/

namespace DepRadar

/-- JavaScript truthiness of a string-or-undefined value: `undefined`,
`null` and `""` are falsy, every other string is truthy. -/
def truthy : Option String → Bool
  | none => false
  | some s => s ≠ ""

/-- First-match lookup in a string-keyed association list
(JS `Map.prototype.get` / property access on a plain object whose keys are
unique). -/
def alGet {α : Type} (m : List (String × α)) (k : String) : Option α :=
  match m with
  | [] => none
  | (k', v) :: rest => if k' = k then some v else alGet rest k

/-- `Map.prototype.set`: replace the first binding of `k` in place,
otherwise append a new binding (V8 preserves insertion order). -/
def alSet {α : Type} (m : List (String × α)) (k : String) (v : α) :
    List (String × α) :=
  match m with
  | [] => [(k, v)]
  | (k', v') :: rest =>
      if k' = k then (k, v) :: rest else (k', v') :: alSet rest k v

/-- `Set.prototype.add` on a set embedded as a duplicate-free list in
insertion order. -/
def addUnique (l : List String) (x : String) : List String :=
  if x ∈ l then l else l ++ [x]

theorem mem_addUnique {l : List String} {x y : String} :
    y ∈ addUnique l x ↔ y ∈ l ∨ y = x := by
  unfold addUnique
  by_cases h : x ∈ l
  · simp only [if_pos h]
    constructor
    · exact Or.inl
    · rintro (hy | rfl)
      · exact hy
      · exact h
  · simp [if_neg h]

theorem nodup_addUnique {l : List String} {x : String} (h : l.Nodup) :
    (addUnique l x).Nodup := by
  unfold addUnique
  by_cases hx : x ∈ l
  · simpa [hx]
  · simp only [if_neg hx]
    simp [List.nodup_append, h, hx]

theorem alGet_alSet_self {α : Type} (m : List (String × α)) (k : String) (v : α) :
    alGet (alSet m k v) k = some v := by
  induction m with
  | nil => simp [alSet, alGet]
  | cons hd tl ih =>
      obtain ⟨k', v'⟩ := hd
      by_cases h : k' = k
      · simp [alSet, alGet, h]
      · simp [alSet, alGet, h, ih]

theorem alGet_alSet_ne {α : Type} (m : List (String × α)) (k k' : String) (v : α)
    (h : k ≠ k') : alGet (alSet m k v) k' = alGet m k' := by
  induction m with
  | nil => simp [alSet, alGet, h]
  | cons hd tl ih =>
      obtain ⟨k₀, v₀⟩ := hd
      by_cases h₀ : k₀ = k
      · subst h₀
        simp [alSet, alGet, h]
      · simp only [alSet, if_neg h₀]
        by_cases h₁ : k₀ = k'
        · simp [alGet, h₁]
        · simp [alGet, h₁, ih]

/-! ## Data model (`src/aggregator.ts`)

`NodeInfo` is the Graph Builder's per-node record; a node map is keyed by
the `name@version` identity key.  The manifest (`package.json`) is embedded
by the two name→range maps the engine reads; each map is optional because
the sources guard every access with `pkg.dependencies && …`. -/

structure NodeInfo where
  name : String
  version : String
  key : String
  depth : Nat
  parents : List String
  children : List String
  dev : Option Bool
deriving Repr, DecidableEq

/-- A node map (`Map<string, NodeInfo>` keyed by `name@version`). -/
def NodeMap : Type := List (String × NodeInfo)

/-- The slice of a `package.json` manifest the engine reads. -/
structure Pkg where
  dependencies : Option (List (String × String))
  devDependencies : Option (List (String × String))
deriving Repr, DecidableEq

/-- `isDirectDependency` (src/aggregator.ts):
`Boolean((pkg.dependencies && pkg.dependencies[name]) || (pkg.devDependencies && pkg.devDependencies[name]))`. -/
def isDirectDependency (name : String) (pkg : Pkg) : Bool :=
  truthy (pkg.dependencies.bind (fun d => alGet d name)) ||
    truthy (pkg.devDependencies.bind (fun d => alGet d name))

/-- All parent keys stored anywhere in a node map; every key the root-cause
walk can ever enqueue lives in this list (used only for the termination
measure of the walk). -/
def parentUniverse (map : NodeMap) : List String :=
  map.foldr (fun p acc => p.2.parents ++ acc) []

theorem parents_subset_parentUniverse {map : NodeMap} {k : String} {n : NodeInfo}
    (h : alGet map k = some n) : ∀ g ∈ n.parents, g ∈ parentUniverse map := by
  induction map with
  | nil => simp [alGet] at h
  | cons hd tl ih =>
      obtain ⟨k', n'⟩ := hd
      by_cases hk : k' = k
      · simp only [alGet, if_pos hk] at h
        cases h
        intro g hg
        simp [parentUniverse, List.mem_append]
        exact Or.inl hg
      · simp only [alGet, if_neg hk] at h
        intro g hg
        simp only [parentUniverse, List.foldr_cons, List.mem_append]
        exact Or.inr (ih h g hg)

/-- Termination measure for the upward root-cause walk: the number of
not-yet-visited keys in the finite universe of enqueueable keys, paired
lexicographically with the queue length. -/
def bfsMeasure (map : NodeMap) (queue visited : List String) : Nat × Nat :=
  (((queue ++ parentUniverse map).toFinset \ visited.toFinset).card, queue.length)

theorem bfsMeasure_card_lt {map : NodeMap} {queue' visited : List String}
    {k : String} (extra : List String) (hx : ∀ g ∈ extra, g ∈ parentUniverse map)
    (hk : k ∉ visited) :
    (((queue' ++ extra ++ parentUniverse map).toFinset \ (k :: visited).toFinset).card)
      < (((k :: queue' ++ parentUniverse map).toFinset \ visited.toFinset).card) := by
  apply Finset.card_lt_card
  constructor
  · intro x hxmem
    simp only [Finset.mem_sdiff, List.toFinset_append, Finset.mem_union,
      List.mem_toFinset, List.toFinset_cons, Finset.mem_insert] at hxmem ⊢
    obtain ⟨hin, hout⟩ := hxmem
    push_neg at hout
    refine ⟨?_, ?_⟩
    · rcases hin with ((h1 | h2) | h3)
      · exact Or.inl (Or.inr h1)
      · exact Or.inr (hx _ h2)
      · exact Or.inr h3
    · simpa using hout.2
  · intro hsub
    have hkmem : k ∈ ((k :: queue' ++ parentUniverse map).toFinset \ visited.toFinset) := by
      simp [List.toFinset_append, hk]
    have := hsub hkmem
    simp [List.toFinset_append] at this

/-- `findRootCauses`' BFS loop (src/aggregator.ts lines 74–96), embedded as
a well-founded recursion: pop the queue head; skip it when visited; record
a directly-declared parent as a root cause; otherwise enqueue its
not-yet-visited grandparents. -/
def bfsRootCauses (map : NodeMap) (pkg : Pkg) :
    List String → List String → List String → List String
  | [], _, roots => roots
  | k :: queue', visited, roots =>
      if hv : k ∈ visited then
        bfsRootCauses map pkg queue' visited roots
      else
        match hget : alGet map k with
        | none => bfsRootCauses map pkg queue' (k :: visited) roots
        | some parent =>
            if isDirectDependency parent.name pkg then
              bfsRootCauses map pkg queue' (k :: visited) (addUnique roots parent.name)
            else
              bfsRootCauses map pkg
                (queue' ++ parent.parents.filter (fun g => g ∉ (k :: visited)))
                (k :: visited) roots
termination_by queue visited _ => bfsMeasure map queue visited
decreasing_by
  · refine Prod.Lex.right' _ ?_ ?_
    · apply Finset.card_le_card
      intro x hx
      simp only [Finset.mem_sdiff, List.toFinset_append, Finset.mem_union,
        List.mem_toFinset, List.toFinset_cons, Finset.mem_insert] at hx ⊢
      exact ⟨hx.1.imp_left (fun h => Or.inr h), hx.2⟩
    · simp
  · exact Prod.Lex.left _ _ (by
      have := @bfsMeasure_card_lt map queue' visited k [] (by simp) hv
      simpa using this)
  · exact Prod.Lex.left _ _ (by
      have := @bfsMeasure_card_lt map queue' visited k [] (by simp) hv
      simpa using this)
  · exact Prod.Lex.left _ _
      (@bfsMeasure_card_lt map queue' visited k
        (parent.parents.filter (fun g => g ∉ (k :: visited)))
        (fun g hg => parents_subset_parentUniverse hget g (List.mem_of_mem_filter hg))
        hv)

/-- `findRootCauses` (src/aggregator.ts lines 67–99): a direct dependency
is its own sole root cause; otherwise BFS up the parent chains and return
the sorted, deduplicated set of directly-declared names found (the JS
`Array.from(set).sort()` is embedded as `mergeSort` with string order). -/
def findRootCauses (node : NodeInfo) (map : NodeMap) (pkg : Pkg) : List String :=
  if isDirectDependency node.name pkg then
    [node.name]
  else
    (bfsRootCauses map pkg node.parents [] []).mergeSort (fun a b => a ≤ b)

/-! ## Root-cause reachability (Root-Cause Tracer, §4.4)

`ReachAvoid map pkg V a b` holds when the upward walk of `findRootCauses`
can move from key `a` to key `b` along parent edges, passing only through
keys outside the avoided set `V`, and stepping onward only from nodes that
are not directly declared (the walk stops at directly-declared parents, as
§4.4 prescribes). -/

inductive ReachAvoid (map : NodeMap) (pkg : Pkg) (V : List String) :
    String → String → Prop
  | refl (k : String) (hk : k ∉ V) : ReachAvoid map pkg V k k
  | step (k g t : String) (n : NodeInfo) (hk : k ∉ V)
      (hget : alGet map k = some n)
      (hnd : isDirectDependency n.name pkg = false)
      (hg : g ∈ n.parents) (htail : ReachAvoid map pkg V g t) :
      ReachAvoid map pkg V k t

/-- The walk reaches key `b` carrying a directly-declared node named `x`. -/
def DirectHit (map : NodeMap) (pkg : Pkg) (b x : String) : Prop :=
  ∃ n : NodeInfo, alGet map b = some n ∧
    isDirectDependency n.name pkg = true ∧ n.name = x

/-- `x` is a root cause discoverable from the queue `Q` while avoiding the
keys in `V`: some queue entry reaches, along non-direct intermediate
parents, a parent node that is directly declared and named `x`. -/
def RootFrom (map : NodeMap) (pkg : Pkg) (Q V : List String) (x : String) : Prop :=
  ∃ a ∈ Q, ∃ b, ReachAvoid map pkg V a b ∧ DirectHit map pkg b x

theorem ReachAvoid.not_mem_avoid {map : NodeMap} {pkg : Pkg} {V : List String}
    {a b : String} (h : ReachAvoid map pkg V a b) : a ∉ V := by
  cases h with
  | refl _ hk => exact hk
  | step _ _ _ _ hk _ _ _ _ => exact hk

/-- Weakening: a walk avoiding a larger set also avoids a smaller one. -/
theorem ReachAvoid.mono {map : NodeMap} {pkg : Pkg} {V V' : List String}
    {a b : String} (hsub : ∀ x, x ∈ V → x ∈ V') (h : ReachAvoid map pkg V' a b) :
    ReachAvoid map pkg V a b := by
  induction h with
  | refl k hk => exact ReachAvoid.refl k (fun hmem => hk (hsub _ hmem))
  | step k g t n hk hget hnd hg _ ih =>
      exact ReachAvoid.step k g t n (fun hmem => hk (hsub _ hmem)) hget hnd hg ih

/-- A walk that ends away from `k` and cannot step through `k` (because
`k` resolves to a directly-declared node) also avoids `k`. -/
theorem ReachAvoid.avoid_direct {map : NodeMap} {pkg : Pkg} {V : List String}
    {a b k : String} {p : NodeInfo} (hget : alGet map k = some p)
    (hdir : isDirectDependency p.name pkg = true)
    (h : ReachAvoid map pkg V a b) : b ≠ k → ReachAvoid map pkg (k :: V) a b := by
  induction h with
  | refl c hc =>
      intro hbk
      refine ReachAvoid.refl c ?_
      simp only [List.mem_cons, not_or]
      exact ⟨hbk, hc⟩
  | step c g t n hc hgetc hnd hg _ ih =>
      intro hbk
      have hck : c ≠ k := by
        rintro rfl
        rw [hget] at hgetc
        cases hgetc
        rw [hdir] at hnd
        cases hnd
      refine ReachAvoid.step c g t n ?_ hgetc hnd hg (ih hbk)
      simp only [List.mem_cons, not_or]
      exact ⟨hck, hc⟩

/-- A walk that ends away from an unresolvable key `k` also avoids `k`. -/
theorem ReachAvoid.avoid_none {map : NodeMap} {pkg : Pkg} {V : List String}
    {a b k : String} (hget : alGet map k = none)
    (h : ReachAvoid map pkg V a b) : b ≠ k → ReachAvoid map pkg (k :: V) a b := by
  induction h with
  | refl c hc =>
      intro hbk
      refine ReachAvoid.refl c ?_
      simp only [List.mem_cons, not_or]
      exact ⟨hbk, hc⟩
  | step c g t n hc hgetc hnd hg _ ih =>
      intro hbk
      have hck : c ≠ k := by
        rintro rfl
        rw [hget] at hgetc
        cases hgetc
      refine ReachAvoid.step c g t n ?_ hgetc hnd hg (ih hbk)
      simp only [List.mem_cons, not_or]
      exact ⟨hck, hc⟩

/-- Path decomposition at a non-direct node `k`: a walk ending away from
`k` either avoids `k` outright, or has a suffix starting at one of `k`'s
parents that avoids `k`. -/
theorem ReachAvoid.split_at {map : NodeMap} {pkg : Pkg} {V : List String}
    {a b k : String} {p : NodeInfo} (hget : alGet map k = some p)
    (hnd : isDirectDependency p.name pkg = false)
    (h : ReachAvoid map pkg V a b) : b ≠ k →
    ReachAvoid map pkg (k :: V) a b ∨
      ∃ g ∈ p.parents, ReachAvoid map pkg (k :: V) g b := by
  induction h with
  | refl c hc =>
      intro hbk
      left
      refine ReachAvoid.refl c ?_
      simp only [List.mem_cons, not_or]
      exact ⟨hbk, hc⟩
  | step c g t n hc hgetc hnd' hg htail ih =>
      intro hbk
      rcases ih hbk with ih' | ih'
      · by_cases hck : c = k
        · subst hck
          rw [hget] at hgetc
          cases hgetc
          exact Or.inr ⟨g, hg, ih'⟩
        · left
          refine ReachAvoid.step c g t n ?_ hgetc hnd' hg ih'
          simp only [List.mem_cons, not_or]
          exact ⟨hck, hc⟩
      · exact Or.inr ih'

theorem bfsRootCauses_visited {map : NodeMap} {pkg : Pkg} {k : String}
    {queue' visited roots : List String} (hv : k ∈ visited) :
    bfsRootCauses map pkg (k :: queue') visited roots =
      bfsRootCauses map pkg queue' visited roots := by
  rw [bfsRootCauses, dif_pos hv]

theorem bfsRootCauses_none {map : NodeMap} {pkg : Pkg} {k : String}
    {queue' visited roots : List String} (hv : k ∉ visited)
    (hget : alGet map k = none) :
    bfsRootCauses map pkg (k :: queue') visited roots =
      bfsRootCauses map pkg queue' (k :: visited) roots := by
  rw [bfsRootCauses, dif_neg hv]
  split
  · rfl
  · next parent heq =>
      rw [hget] at heq
      cases heq

theorem bfsRootCauses_direct {map : NodeMap} {pkg : Pkg} {k : String}
    {queue' visited roots : List String} {parent : NodeInfo} (hv : k ∉ visited)
    (hget : alGet map k = some parent)
    (hdir : isDirectDependency parent.name pkg = true) :
    bfsRootCauses map pkg (k :: queue') visited roots =
      bfsRootCauses map pkg queue' (k :: visited) (addUnique roots parent.name) := by
  rw [bfsRootCauses, dif_neg hv]
  split
  · next heq =>
      rw [hget] at heq
      cases heq
  · next p heq =>
      rw [hget] at heq
      cases heq
      rw [if_pos hdir]

theorem bfsRootCauses_transitive {map : NodeMap} {pkg : Pkg} {k : String}
    {queue' visited roots : List String} {parent : NodeInfo} (hv : k ∉ visited)
    (hget : alGet map k = some parent)
    (hnd : isDirectDependency parent.name pkg = false) :
    bfsRootCauses map pkg (k :: queue') visited roots =
      bfsRootCauses map pkg
        (queue' ++ parent.parents.filter (fun g => g ∉ (k :: visited)))
        (k :: visited) roots := by
  rw [bfsRootCauses, dif_neg hv]
  split
  · next heq =>
      rw [hget] at heq
      cases heq
  · next p heq =>
      rw [hget] at heq
      cases heq
      rw [if_neg (by simp [hnd])]

/-- A `DirectHit` endpoint is never a key whose node is not directly
declared. -/
theorem DirectHit.ne_of_not_direct {map : NodeMap} {pkg : Pkg} {b k x : String}
    {p : NodeInfo} (hget : alGet map k = some p)
    (hnd : isDirectDependency p.name pkg = false)
    (h : DirectHit map pkg b x) : b ≠ k := by
  rintro rfl
  obtain ⟨n, hn, hd, _⟩ := h
  rw [hget] at hn
  cases hn
  rw [hnd] at hd
  cases hd

/-- BFS exactness: the loop of `findRootCauses` returns precisely the
accumulated roots together with every root cause discoverable from the
queue while avoiding the visited set. -/
theorem bfsRootCauses_mem (map : NodeMap) (pkg : Pkg) :
    ∀ queue visited roots x,
      x ∈ bfsRootCauses map pkg queue visited roots ↔
        x ∈ roots ∨ RootFrom map pkg queue visited x := by
  intro queue visited roots
  induction queue, visited, roots using bfsRootCauses.induct map pkg with
  | case1 visited roots =>
      intro x
      simp [bfsRootCauses, RootFrom]
  | case2 k queue' visited roots hv ih =>
      intro x
      rw [bfsRootCauses_visited hv, ih]
      apply or_congr_right
      constructor
      · rintro ⟨a, ha, b, hr, hhit⟩
        exact ⟨a, List.mem_cons_of_mem _ ha, b, hr, hhit⟩
      · rintro ⟨a, ha, b, hr, hhit⟩
        rcases List.mem_cons.mp ha with rfl | ha'
        · exact absurd hv hr.not_mem_avoid
        · exact ⟨a, ha', b, hr, hhit⟩
  | case3 k queue' visited roots hv hget ih =>
      intro x
      rw [bfsRootCauses_none hv hget, ih]
      apply or_congr_right
      constructor
      · rintro ⟨a, ha, b, hr, hhit⟩
        exact ⟨a, List.mem_cons_of_mem _ ha, b,
          hr.mono (fun y hy => List.mem_cons_of_mem _ hy), hhit⟩
      · rintro ⟨a, ha, b, hr, hhit⟩
        have hbk : b ≠ k := by
          rintro rfl
          obtain ⟨n, hn, _, _⟩ := hhit
          rw [hget] at hn
          cases hn
        have hak : a ≠ k := by
          rintro rfl
          cases hr with
          | refl _ _ => exact hbk rfl
          | step _ _ _ n _ hgetk _ _ _ =>
              rw [hget] at hgetk
              cases hgetk
        rcases List.mem_cons.mp ha with rfl | ha'
        · exact absurd rfl hak
        · exact ⟨a, ha', b, hr.avoid_none hget hbk, hhit⟩
  | case4 k queue' visited roots hv parent hget hdir ih =>
      intro x
      rw [bfsRootCauses_direct hv hget hdir, ih]
      constructor
      · rintro (hmem | hfrom)
        · rcases mem_addUnique.mp hmem with hmem' | rfl
          · exact Or.inl hmem'
          · exact Or.inr ⟨k, List.mem_cons_self _ _, k, ReachAvoid.refl k hv,
              parent, hget, hdir, rfl⟩
        · obtain ⟨a, ha, b, hr, hhit⟩ := hfrom
          exact Or.inr ⟨a, List.mem_cons_of_mem _ ha, b,
            hr.mono (fun y hy => List.mem_cons_of_mem _ hy), hhit⟩
      · rintro (hmem | hfrom)
        · exact Or.inl (mem_addUnique.mpr (Or.inl hmem))
        · obtain ⟨a, ha, b, hr, hhit⟩ := hfrom
          by_cases hbk : b = k
          · subst hbk
            obtain ⟨n, hn, _, hname⟩ := hhit
            rw [hget] at hn
            cases hn
            exact Or.inl (mem_addUnique.mpr (Or.inr hname.symm))
          · have hr' := hr.avoid_direct hget hdir hbk
            have hak : a ≠ k := by
              intro heq
              apply hr'.not_mem_avoid
              rw [heq]
              exact List.mem_cons_self _ _
            rcases List.mem_cons.mp ha with rfl | ha'
            · exact absurd rfl hak
            · exact Or.inr ⟨a, ha', b, hr', hhit⟩
  | case5 k queue' visited roots hv parent hget hdir ih =>
      intro x
      have hnd : isDirectDependency parent.name pkg = false :=
        Bool.not_eq_true _ ▸ eq_false_of_ne_true hdir
      rw [bfsRootCauses_transitive hv hget hnd, ih]
      apply or_congr_right
      constructor
      · rintro ⟨a, ha, b, hr, hhit⟩
        have hr₀ : ReachAvoid map pkg visited a b :=
          hr.mono (fun y hy => List.mem_cons_of_mem _ hy)
        rcases List.mem_append.mp ha with ha' | ha'
        · exact ⟨a, List.mem_cons_of_mem _ ha', b, hr₀, hhit⟩
        · have hamem : a ∈ parent.parents := List.mem_of_mem_filter ha'
          exact ⟨k, List.mem_cons_self _ _, b,
            ReachAvoid.step k a b parent hv hget hnd hamem hr₀, hhit⟩
      · rintro ⟨a, ha, b, hr, hhit⟩
        have hbk : b ≠ k := hhit.ne_of_not_direct hget hnd
        rcases hr.split_at hget hnd hbk with hr' | ⟨g, hgmem, hr'⟩
        · have hak : a ≠ k := by
            intro heq
            apply hr'.not_mem_avoid
            rw [heq]
            exact List.mem_cons_self _ _
          rcases List.mem_cons.mp ha with rfl | ha'
          · exact absurd rfl hak
          · exact ⟨a, List.mem_append_left _ ha', b, hr', hhit⟩
        · have hgout : g ∉ (k :: visited) := hr'.not_mem_avoid
          refine ⟨g, List.mem_append_right _ ?_, b, hr', hhit⟩
          exact List.mem_filter.mpr ⟨hgmem, by simpa using hgout⟩

/-- The BFS accumulator stays duplicate-free (`rootCauses` is a JS `Set`). -/
theorem bfsRootCauses_nodup (map : NodeMap) (pkg : Pkg) :
    ∀ queue visited roots, roots.Nodup →
      (bfsRootCauses map pkg queue visited roots).Nodup := by
  intro queue visited roots
  induction queue, visited, roots using bfsRootCauses.induct map pkg with
  | case1 visited roots =>
      intro h
      simpa [bfsRootCauses] using h
  | case2 k queue' visited roots hv ih =>
      intro h
      rw [bfsRootCauses_visited hv]
      exact ih h
  | case3 k queue' visited roots hv hget ih =>
      intro h
      rw [bfsRootCauses_none hv hget]
      exact ih h
  | case4 k queue' visited roots hv parent hget hdir ih =>
      intro h
      rw [bfsRootCauses_direct hv hget hdir]
      exact ih (nodup_addUnique h)
  | case5 k queue' visited roots hv parent hget hdir ih =>
      intro h
      have hnd : isDirectDependency parent.name pkg = false :=
        Bool.not_eq_true _ ▸ eq_false_of_ne_true hdir
      rw [bfsRootCauses_transitive hv hget hnd]
      exact ih h

/-- Plain upward reachability over parent edges (no stopping condition):
`UpwardReachable map a b` holds when key `b` can be reached from key `a`
by repeatedly moving to a parent recorded in the node map. -/
inductive UpwardReachable (map : NodeMap) : String → String → Prop
  | here (k : String) : UpwardReachable map k k
  | up (k g t : String) (n : NodeInfo) (hget : alGet map k = some n)
      (hg : g ∈ n.parents) (h : UpwardReachable map g t) : UpwardReachable map k t

/-- `x` is a root cause of `node` in the sense actually computed by the
Root-Cause Tracer: some parent of `node` reaches, along chains of
non-directly-declared intermediate nodes, a directly-declared node named
`x` (the upward walk stops at directly-declared parents, §4.4). -/
def RootCauseReachable (map : NodeMap) (pkg : Pkg) (node : NodeInfo)
    (x : String) : Prop :=
  RootFrom map pkg node.parents [] x

/-! ### Claim C1 -/

/-- Concrete graph for claim C1: `a` and `b` are both directly declared,
`a@1` is a parent of `b@1`, and `b@1` is the sole parent of the transitive
node `c@1`. -/
def c1Pkg : Pkg := ⟨some [("a", "1"), ("b", "1")], none⟩

def c1NodeC : NodeInfo := ⟨"c", "1", "c@1", 3, ["b@1"], [], none⟩

def c1Map : NodeMap :=
  [("a@1", ⟨"a", "1", "a@1", 1, [], ["b@1"], none⟩),
   ("b@1", ⟨"b", "1", "b@1", 1, ["a@1"], ["c@1"], none⟩),
   ("c@1", c1NodeC)]

unseal List.merge List.mergeSort bfsRootCauses in
/-- Claim C1, as stated, is false: in `c1Map` the directly-declared node
`a` is an ancestor of the transitive node `c@1` reachable upward over
parent edges, yet `findRootCauses` omits it, because the upward walk stops
at the directly-declared parent `b` and never explores `b`'s own parents. -/
theorem findRootCauses_counterexample :
    alGet c1Map "c@1" = some c1NodeC ∧
    isDirectDependency c1NodeC.name c1Pkg = false ∧
    isDirectDependency "a" c1Pkg = true ∧
    UpwardReachable c1Map "c@1" "a@1" ∧
    (alGet c1Map "a@1").map NodeInfo.name = some "a" ∧
    findRootCauses c1NodeC c1Map c1Pkg = ["b"] ∧
    "a" ∉ findRootCauses c1NodeC c1Map c1Pkg := by
  refine ⟨by decide, by decide, by decide, ?_, by decide, by decide, by decide⟩
  refine UpwardReachable.up "c@1" "b@1" "a@1" c1NodeC (by decide) (by decide) ?_
  exact UpwardReachable.up "b@1" "a@1" "a@1"
    ⟨"b", "1", "b@1", 1, ["a@1"], ["c@1"], none⟩ (by decide) (by decide)
    (UpwardReachable.here "a@1")

/-- Claim C1 (amended): for every node, if the node's name is directly
declared then `findRootCauses` returns exactly `[node.name]`; otherwise it
returns a sorted, duplicate-free list containing exactly the names of the
directly-declared nodes reachable upward from the node's parents through
chains of non-directly-declared intermediate nodes (the walk stops at
directly-declared parents), every entry being directly declared; the walk
terminates on every finite node map, including diamond- or cycle-shaped
parent chains, by the totality of `bfsRootCauses`. -/
theorem findRootCauses_amended (node : NodeInfo) (map : NodeMap) (pkg : Pkg) :
    (isDirectDependency node.name pkg = true →
      findRootCauses node map pkg = [node.name]) ∧
    (isDirectDependency node.name pkg = false →
      (∀ x, x ∈ findRootCauses node map pkg ↔
        RootCauseReachable map pkg node x) ∧
      (∀ x ∈ findRootCauses node map pkg, isDirectDependency x pkg = true) ∧
      List.Sorted (· ≤ ·) (findRootCauses node map pkg) ∧
      (findRootCauses node map pkg).Nodup) := by
  constructor
  · intro hdir
    rw [findRootCauses, if_pos hdir]
  · intro hnd
    have hne : ¬ isDirectDependency node.name pkg = true := by simp [hnd]
    have hmem : ∀ x, x ∈ findRootCauses node map pkg ↔
        RootCauseReachable map pkg node x := by
      intro x
      rw [findRootCauses, if_neg hne, List.mem_mergeSort,
        bfsRootCauses_mem map pkg node.parents [] []]
      simp only [List.not_mem_nil, false_or]
      rfl
    refine ⟨hmem, ?_, ?_, ?_⟩
    · intro x hx
      obtain ⟨a, _, b, _, n, _, hd, hname⟩ := (hmem x).mp hx
      rw [← hname]
      exact hd
    · rw [findRootCauses, if_neg hne]
      have := @List.sorted_mergeSort String (fun a b : String => a ≤ b)
        (fun a b c h1 h2 => by
          simp only [decide_eq_true_eq] at *
          exact le_trans h1 h2)
        (fun a b => by
          rcases le_total a b with h | h <;> simp [h])
        (bfsRootCauses map pkg node.parents [] [])
      exact this.imp (fun h => by simpa using h)
    · rw [findRootCauses, if_neg hne]
      exact (List.mergeSort_perm _ _).nodup_iff.mpr
        (bfsRootCauses_nodup map pkg node.parents [] [] (by simp))

/-- Witness for `findRootCauses_amended` at concrete inputs: `b@1` is
directly declared so its root-cause list is `["b"]`; `c@1` is transitive
and both implications are discharged. -/
theorem findRootCauses_amended_witness :
    findRootCauses ⟨"b", "1", "b@1", 1, ["a@1"], ["c@1"], none⟩ c1Map c1Pkg
        = ["b"] ∧
    ((∀ x, x ∈ findRootCauses c1NodeC c1Map c1Pkg ↔
        RootCauseReachable c1Map c1Pkg c1NodeC x) ∧
      (∀ x ∈ findRootCauses c1NodeC c1Map c1Pkg,
        isDirectDependency x c1Pkg = true) ∧
      List.Sorted (· ≤ ·) (findRootCauses c1NodeC c1Map c1Pkg) ∧
      (findRootCauses c1NodeC c1Map c1Pkg).Nodup) :=
  ⟨(findRootCauses_amended ⟨"b", "1", "b@1", 1, ["a@1"], ["c@1"], none⟩
      c1Map c1Pkg).1 (by decide),
   (findRootCauses_amended c1NodeC c1Map c1Pkg).2 (by decide)⟩

/-! ## Runtime Classifier (`classifyRuntime`, src/aggregator.ts 613–670)

The JS function threads one mutable cache in which memoized results live
alongside `__visiting__`-prefixed in-progress markers.  The markers are set
before the parent loop and deleted right after it, so they behave as a
downward-scoped set: the embedding passes the in-progress set (`visiting`)
as a plain parameter and threads only the memo through return values. -/

inductive RuntimeClass where
  | runtime
  | buildTime
  | devOnly
deriving Repr, DecidableEq

structure RtResult where
  classification : RuntimeClass
  reason : String
deriving Repr, DecidableEq

def RtCache : Type := List (String × RtResult)

/-- The keys of a node map, as a finset (termination measure only). -/
def keysFinset (map : NodeMap) : Finset String :=
  (map.map Prod.fst).toFinset

theorem mem_keysFinset_of_alGet {map : NodeMap} {k : String} {n : NodeInfo}
    (h : alGet map k = some n) : k ∈ keysFinset map := by
  induction map with
  | nil => simp [alGet] at h
  | cons hd tl ih =>
      obtain ⟨k', n'⟩ := hd
      by_cases hk : k' = k
      · subst hk
        simp [keysFinset]
      · simp only [alGet, if_neg hk] at h
        simp only [keysFinset, List.map_cons, List.toFinset_cons, Finset.mem_insert]
        exact Or.inr (ih h)

theorem keysFinset_sdiff_lt {map : NodeMap} {visiting : List String} {k : String}
    (hk : k ∈ keysFinset map) (hv : k ∉ visiting) :
    ((keysFinset map \ (k :: visiting).toFinset).card)
      < ((keysFinset map \ visiting.toFinset).card) := by
  apply Finset.card_lt_card
  constructor
  · intro x hx
    simp only [Finset.mem_sdiff, List.toFinset_cons, Finset.mem_insert,
      List.mem_toFinset] at hx ⊢
    push_neg at hx
    exact ⟨hx.1, hx.2.2⟩
  · intro hsub
    have hkmem : k ∈ keysFinset map \ visiting.toFinset := by
      simp only [Finset.mem_sdiff, List.mem_toFinset]
      exact ⟨hk, hv⟩
    have := hsub hkmem
    simp at this

mutual

/-- `classifyRuntime` (src/aggregator.ts 613–670): memo hit; unknown node
falls back to build-time; declared runtime / dev dependencies classify
immediately; a re-entered (in-progress) node is memoized as the
conservative build-time cycle fallback; otherwise the class is inherited
from the recursively classified parents (any runtime parent → runtime,
else any build-time parent → build-time, else dev-only). -/
def classifyRuntime (pkg : Pkg) (map : NodeMap) (nodeKey : String)
    (visiting : List String) (cache : RtCache) : RtResult × RtCache :=
  match alGet cache nodeKey with
  | some cached => (cached, cache)
  | none =>
      match hget : alGet map nodeKey with
      | none =>
          let fallback : RtResult :=
            ⟨RuntimeClass.buildTime, "Unknown node in dependency graph"⟩
          (fallback, alSet cache nodeKey fallback)
      | some node =>
          if truthy (pkg.dependencies.bind (fun d => alGet d node.name)) then
            let result : RtResult := ⟨RuntimeClass.runtime, "Declared in dependencies"⟩
            (result, alSet cache nodeKey result)
          else if truthy (pkg.devDependencies.bind (fun d => alGet d node.name)) then
            let result : RtResult := ⟨RuntimeClass.devOnly, "Declared in devDependencies"⟩
            (result, alSet cache nodeKey result)
          else if hvis : nodeKey ∈ visiting then
            let cycleFallback : RtResult :=
              ⟨RuntimeClass.buildTime, "Dependency cycle; defaulting to build-time"⟩
            (cycleFallback, alSet cache nodeKey cycleFallback)
          else
            let step := classifyParents pkg map node.parents (nodeKey :: visiting) cache
            let result : RtResult :=
              if RuntimeClass.runtime ∈ step.1 then
                ⟨RuntimeClass.runtime, "Transitive of runtime dependency"⟩
              else if RuntimeClass.buildTime ∈ step.1 then
                ⟨RuntimeClass.buildTime, "Transitive of build-time dependency"⟩
              else ⟨RuntimeClass.devOnly, "Transitive of dev-only dependency"⟩
            (result, alSet step.2 nodeKey result)
termination_by ((keysFinset map \ visiting.toFinset).card, 0)
decreasing_by
  exact Prod.Lex.left _ _ (keysFinset_sdiff_lt (mem_keysFinset_of_alGet hget) hvis)

/-- The `for (const parentKey of node.parents)` loop of `classifyRuntime`:
skip parents missing from the node map, classify the rest in order while
threading the memo. -/
def classifyParents (pkg : Pkg) (map : NodeMap) (ps : List String)
    (visiting : List String) (cache : RtCache) : List RuntimeClass × RtCache :=
  match ps with
  | [] => ([], cache)
  | p :: rest =>
      match alGet map p with
      | none => classifyParents pkg map rest visiting cache
      | some _ =>
          let stepP := classifyRuntime pkg map p visiting cache
          let stepR := classifyParents pkg map rest visiting stepP.2
          (stepP.1.classification :: stepR.1, stepR.2)
termination_by ((keysFinset map \ visiting.toFinset).card, ps.length + 1)
decreasing_by
  · exact Prod.Lex.right _ (by simp only [List.length_cons]; omega)
  · exact Prod.Lex.right _ (by simp only [List.length_cons]; omega)
  · exact Prod.Lex.right _ (by simp only [List.length_cons]; omega)

end

/-- Every exit path of `classifyRuntime` leaves the returned result
memoized under the queried key. -/
theorem classifyRuntime_memo (pkg : Pkg) (map : NodeMap) (k : String)
    (vis : List String) (cache : RtCache) :
    alGet (classifyRuntime pkg map k vis cache).2 k
      = some (classifyRuntime pkg map k vis cache).1 := by
  rw [classifyRuntime]
  split
  · next cached heq => exact heq
  · next heq =>
      split
      · exact alGet_alSet_self _ _ _
      · next node hget =>
          split
          · exact alGet_alSet_self _ _ _
          · split
            · exact alGet_alSet_self _ _ _
            · split
              · exact alGet_alSet_self _ _ _
              · exact alGet_alSet_self _ _ _

/-- Re-running the classifier on the memo produced by a first run returns
the first run's result unchanged (classification determinism across runs,
for any in-progress set). -/
theorem classifyRuntime_idem (pkg : Pkg) (map : NodeMap) (k : String)
    (vis vis' : List String) (cache : RtCache) :
    classifyRuntime pkg map k vis'
        (classifyRuntime pkg map k vis cache).2
      = classifyRuntime pkg map k vis cache := by
  have h := classifyRuntime_memo pkg map k vis cache
  conv_lhs => rw [classifyRuntime]
  split
  · next cached heq =>
      rw [h] at heq
      cases heq
      rfl
  · next heq =>
      rw [h] at heq
      cases heq

/-- The inheritance step at the end of `classifyRuntime` (aggregator.ts
660–667): any runtime parent → runtime, else any build-time parent →
build-time, else dev-only. -/
def inheritResult (classes : List RuntimeClass) : RtResult :=
  if RuntimeClass.runtime ∈ classes then
    ⟨RuntimeClass.runtime, "Transitive of runtime dependency"⟩
  else if RuntimeClass.buildTime ∈ classes then
    ⟨RuntimeClass.buildTime, "Transitive of build-time dependency"⟩
  else ⟨RuntimeClass.devOnly, "Transitive of dev-only dependency"⟩

theorem classifyRuntime_cached (pkg : Pkg) (map : NodeMap) (k : String)
    (visiting : List String) (cache : RtCache) (cached : RtResult)
    (h : alGet cache k = some cached) :
    classifyRuntime pkg map k visiting cache = (cached, cache) := by
  rw [classifyRuntime, h]

theorem classifyRuntime_unknown (pkg : Pkg) (map : NodeMap) (k : String)
    (visiting : List String) (cache : RtCache)
    (h1 : alGet cache k = none) (h2 : alGet map k = none) :
    classifyRuntime pkg map k visiting cache =
      (⟨RuntimeClass.buildTime, "Unknown node in dependency graph"⟩,
       alSet cache k ⟨RuntimeClass.buildTime, "Unknown node in dependency graph"⟩) := by
  rw [classifyRuntime]
  split
  · next cached heq => rw [h1] at heq; cases heq
  · split
    · rfl
    · next node hget => rw [h2] at hget; cases hget

theorem classifyRuntime_runtimeDecl (pkg : Pkg) (map : NodeMap) (k : String)
    (visiting : List String) (cache : RtCache) (node : NodeInfo)
    (h1 : alGet cache k = none) (h2 : alGet map k = some node)
    (h3 : truthy (pkg.dependencies.bind (fun d => alGet d node.name)) = true) :
    classifyRuntime pkg map k visiting cache =
      (⟨RuntimeClass.runtime, "Declared in dependencies"⟩,
       alSet cache k ⟨RuntimeClass.runtime, "Declared in dependencies"⟩) := by
  rw [classifyRuntime]
  split
  · next cached heq => rw [h1] at heq; cases heq
  · split
    · next hget => rw [h2] at hget; cases hget
    · next node' hget =>
        rw [h2] at hget
        cases hget
        rw [if_pos h3]

theorem classifyRuntime_devDecl (pkg : Pkg) (map : NodeMap) (k : String)
    (visiting : List String) (cache : RtCache) (node : NodeInfo)
    (h1 : alGet cache k = none) (h2 : alGet map k = some node)
    (h3 : truthy (pkg.dependencies.bind (fun d => alGet d node.name)) = false)
    (h4 : truthy (pkg.devDependencies.bind (fun d => alGet d node.name)) = true) :
    classifyRuntime pkg map k visiting cache =
      (⟨RuntimeClass.devOnly, "Declared in devDependencies"⟩,
       alSet cache k ⟨RuntimeClass.devOnly, "Declared in devDependencies"⟩) := by
  rw [classifyRuntime]
  split
  · next cached heq => rw [h1] at heq; cases heq
  · split
    · next hget => rw [h2] at hget; cases hget
    · next node' hget =>
        rw [h2] at hget
        cases hget
        rw [if_neg (by simp [h3]), if_pos h4]

theorem classifyRuntime_cycleHit (pkg : Pkg) (map : NodeMap) (k : String)
    (visiting : List String) (cache : RtCache) (node : NodeInfo)
    (h1 : alGet cache k = none) (h2 : alGet map k = some node)
    (h3 : truthy (pkg.dependencies.bind (fun d => alGet d node.name)) = false)
    (h4 : truthy (pkg.devDependencies.bind (fun d => alGet d node.name)) = false)
    (h5 : k ∈ visiting) :
    classifyRuntime pkg map k visiting cache =
      (⟨RuntimeClass.buildTime, "Dependency cycle; defaulting to build-time"⟩,
       alSet cache k
         ⟨RuntimeClass.buildTime, "Dependency cycle; defaulting to build-time"⟩) := by
  rw [classifyRuntime]
  split
  · next cached heq => rw [h1] at heq; cases heq
  · split
    · next hget => rw [h2] at hget; cases hget
    · next node' hget =>
        rw [h2] at hget
        cases hget
        rw [if_neg (by simp [h3]), if_neg (by simp [h4]), dif_pos h5]

theorem classifyRuntime_recurse (pkg : Pkg) (map : NodeMap) (k : String)
    (visiting : List String) (cache : RtCache) (node : NodeInfo)
    (h1 : alGet cache k = none) (h2 : alGet map k = some node)
    (h3 : truthy (pkg.dependencies.bind (fun d => alGet d node.name)) = false)
    (h4 : truthy (pkg.devDependencies.bind (fun d => alGet d node.name)) = false)
    (h5 : k ∉ visiting) :
    classifyRuntime pkg map k visiting cache =
      (inheritResult
         (classifyParents pkg map node.parents (k :: visiting) cache).1,
       alSet (classifyParents pkg map node.parents (k :: visiting) cache).2 k
         (inheritResult
           (classifyParents pkg map node.parents (k :: visiting) cache).1)) := by
  rw [classifyRuntime]
  split
  · next cached heq => rw [h1] at heq; cases heq
  · split
    · next hget => rw [h2] at hget; cases hget
    · next node' hget =>
        rw [h2] at hget
        cases hget
        rw [if_neg (by simp [h3]), if_neg (by simp [h4]), dif_neg h5]
        rfl

theorem classifyParents_nil (pkg : Pkg) (map : NodeMap)
    (visiting : List String) (cache : RtCache) :
    classifyParents pkg map [] visiting cache = ([], cache) := by
  rw [classifyParents]

theorem classifyParents_cons_none (pkg : Pkg) (map : NodeMap) (p : String)
    (rest visiting : List String) (cache : RtCache)
    (hp : alGet map p = none) :
    classifyParents pkg map (p :: rest) visiting cache =
      classifyParents pkg map rest visiting cache := by
  rw [classifyParents]
  split
  · rfl
  · next n h => rw [hp] at h; cases h

theorem classifyParents_cons_some (pkg : Pkg) (map : NodeMap) (p : String)
    (rest visiting : List String) (cache : RtCache) (n : NodeInfo)
    (hp : alGet map p = some n) :
    classifyParents pkg map (p :: rest) visiting cache =
      ((classifyRuntime pkg map p visiting cache).1.classification ::
        (classifyParents pkg map rest visiting
          (classifyRuntime pkg map p visiting cache).2).1,
       (classifyParents pkg map rest visiting
          (classifyRuntime pkg map p visiting cache).2).2) := by
  rw [classifyParents]
  split
  · next h => rw [hp] at h; cases h
  · rfl

/-- An isolated dependency cycle, decidably: every member is present in
the node map, declared in neither `dependencies` nor `devDependencies`,
has at least one parent, and all its parents lie within the member set. -/
def isolatedCycleB (pkg : Pkg) (map : NodeMap) (C : List String) : Bool :=
  C.all (fun k =>
    match alGet map k with
    | none => false
    | some node =>
        !truthy (pkg.dependencies.bind (fun d => alGet d node.name)) &&
        !truthy (pkg.devDependencies.bind (fun d => alGet d node.name)) &&
        !node.parents.isEmpty &&
        node.parents.all (fun p => decide (p ∈ C)))

/-- A memo holding no non-build-time entry for any member of `C`. -/
def cycleCacheGood (C : List String) (cache : RtCache) : Prop :=
  ∀ c ∈ C, ∀ r, alGet cache c = some r →
    r.classification = RuntimeClass.buildTime

theorem cycleCacheGood_nil (C : List String) : cycleCacheGood C [] := by
  intro c hc r h
  simp [alGet] at h

theorem isolatedCycleB_spec {pkg : Pkg} {map : NodeMap} {C : List String}
    {k : String} (hiso : isolatedCycleB pkg map C = true) (hk : k ∈ C) :
    ∃ node, alGet map k = some node ∧
      truthy (pkg.dependencies.bind (fun d => alGet d node.name)) = false ∧
      truthy (pkg.devDependencies.bind (fun d => alGet d node.name)) = false ∧
      node.parents ≠ [] ∧ ∀ p ∈ node.parents, p ∈ C := by
  rw [isolatedCycleB, List.all_eq_true] at hiso
  have h := hiso k hk
  cases hget : alGet map k with
  | none => rw [hget] at h; simp at h
  | some node =>
      rw [hget] at h
      simp only [Bool.and_eq_true, Bool.not_eq_true', List.all_eq_true,
        decide_eq_true_eq] at h
      refine ⟨node, rfl, h.1.1.1, h.1.1.2, ?_, h.2⟩
      intro hnil
      have hie := h.1.2
      rw [hnil] at hie
      simp at hie

theorem cycleCacheGood_alSet_buildTime {C : List String} {cache : RtCache}
    (h : cycleCacheGood C cache) (k : String) (r : RtResult)
    (hr : r.classification = RuntimeClass.buildTime) :
    cycleCacheGood C (alSet cache k r) := by
  intro c hc r' hget
  by_cases hck : k = c
  · subst hck
    rw [alGet_alSet_self] at hget
    cases hget
    exact hr
  · rw [alGet_alSet_ne _ _ _ _ hck] at hget
    exact h c hc r' hget

theorem cycleCacheGood_alSet_notMem {C : List String} {cache : RtCache}
    (h : cycleCacheGood C cache) {k : String} (hk : k ∉ C) (r : RtResult) :
    cycleCacheGood C (alSet cache k r) := by
  intro c hc r' hget
  have hkc : k ≠ c := fun he => hk (he ▸ hc)
  rw [alGet_alSet_ne _ _ _ _ hkc] at hget
  exact h c hc r' hget

/-- Isolated cycles classify build-time, universally: on a graph holding
an isolated cycle `C`, every classification call on any member — from any
in-progress set and any memo with no non-build-time entry for a member —
returns build-time, and any call at all preserves that memo invariant. -/
theorem classifyRuntime_isolatedCycle (pkg : Pkg) (map : NodeMap)
    (C : List String) (hiso : isolatedCycleB pkg map C = true) :
    (∀ (k : String) (visiting : List String) (cache : RtCache),
      cycleCacheGood C cache →
        cycleCacheGood C (classifyRuntime pkg map k visiting cache).2 ∧
        (k ∈ C →
          (classifyRuntime pkg map k visiting cache).1.classification
            = RuntimeClass.buildTime)) ∧
    (∀ (ps visiting : List String) (cache : RtCache),
      cycleCacheGood C cache →
        cycleCacheGood C (classifyParents pkg map ps visiting cache).2 ∧
        ((∀ p ∈ ps, p ∈ C) →
          ∀ cls ∈ (classifyParents pkg map ps visiting cache).1,
            cls = RuntimeClass.buildTime)) := by
  refine classifyRuntime.mutual_induct pkg map
    (fun k visiting cache => cycleCacheGood C cache →
      cycleCacheGood C (classifyRuntime pkg map k visiting cache).2 ∧
      (k ∈ C →
        (classifyRuntime pkg map k visiting cache).1.classification
          = RuntimeClass.buildTime))
    (fun ps visiting cache => cycleCacheGood C cache →
      cycleCacheGood C (classifyParents pkg map ps visiting cache).2 ∧
      ((∀ p ∈ ps, p ∈ C) →
        ∀ cls ∈ (classifyParents pkg map ps visiting cache).1,
          cls = RuntimeClass.buildTime))
    ?_ ?_ ?_ ?_ ?_ ?_ ?_ ?_ ?_
  · intro k visiting cache cached heq hgood
    rw [classifyRuntime_cached pkg map k visiting cache cached heq]
    exact ⟨hgood, fun hk => hgood k hk cached heq⟩
  · intro k visiting cache h1 h2 hgood
    rw [classifyRuntime_unknown pkg map k visiting cache h1 h2]
    exact ⟨cycleCacheGood_alSet_buildTime hgood _ _ rfl, fun _ => rfl⟩
  · intro k visiting cache h1 node h2 h3 hgood
    rw [classifyRuntime_runtimeDecl pkg map k visiting cache node h1 h2 h3]
    have hk : k ∉ C := by
      intro hk
      obtain ⟨node', hn, hd, -⟩ := isolatedCycleB_spec hiso hk
      rw [h2] at hn
      cases hn
      rw [h3] at hd
      cases hd
    exact ⟨cycleCacheGood_alSet_notMem hgood hk _, fun hk' => absurd hk' hk⟩
  · intro k visiting cache h1 node h2 h3 h4 hgood
    have h3' : truthy (pkg.dependencies.bind (fun d => alGet d node.name))
        = false := by simpa using h3
    rw [classifyRuntime_devDecl pkg map k visiting cache node h1 h2 h3' h4]
    have hk : k ∉ C := by
      intro hk
      obtain ⟨node', hn, -, hd, -⟩ := isolatedCycleB_spec hiso hk
      rw [h2] at hn
      cases hn
      rw [h4] at hd
      cases hd
    exact ⟨cycleCacheGood_alSet_notMem hgood hk _, fun hk' => absurd hk' hk⟩
  · intro k visiting cache h1 node h2 h3 h4 h5 hgood
    have h3' : truthy (pkg.dependencies.bind (fun d => alGet d node.name))
        = false := by simpa using h3
    have h4' : truthy (pkg.devDependencies.bind (fun d => alGet d node.name))
        = false := by simpa using h4
    rw [classifyRuntime_cycleHit pkg map k visiting cache node h1 h2 h3' h4' h5]
    exact ⟨cycleCacheGood_alSet_buildTime hgood _ _ rfl, fun _ => rfl⟩
  · intro k visiting cache h1 node h2 h3 h4 h5 ih hgood
    have h3' : truthy (pkg.dependencies.bind (fun d => alGet d node.name))
        = false := by simpa using h3
    have h4' : truthy (pkg.devDependencies.bind (fun d => alGet d node.name))
        = false := by simpa using h4
    rw [classifyRuntime_recurse pkg map k visiting cache node h1 h2 h3' h4' h5]
    obtain ⟨ihgood, ihall⟩ := ih hgood
    by_cases hk : k ∈ C
    · obtain ⟨node', hn, -, -, hne, hpar⟩ := isolatedCycleB_spec hiso hk
      rw [h2] at hn
      cases hn
      have hall := ihall hpar
      have hBT : RuntimeClass.buildTime ∈
          (classifyParents pkg map node.parents (k :: visiting) cache).1 := by
        cases hps : node.parents with
        | nil => exact absurd hps hne
        | cons p rest =>
            have hpC : p ∈ C := hpar p (by rw [hps]; exact List.mem_cons_self _ _)
            obtain ⟨np, hnp, -⟩ := isolatedCycleB_spec hiso hpC
            rw [classifyParents_cons_some pkg map p rest (k :: visiting)
              cache np hnp]
            have hcls := hall
              ((classifyRuntime pkg map p (k :: visiting) cache).1.classification)
              (by
                rw [hps, classifyParents_cons_some pkg map p rest (k :: visiting)
                  cache np hnp]
                exact List.mem_cons_self _ _)
            rw [← hcls]
            exact List.mem_cons_self _ _
      have hnoRT : RuntimeClass.runtime ∉
          (classifyParents pkg map node.parents (k :: visiting) cache).1 := by
        intro hmem
        have := hall _ hmem
        cases this
      have hres : inheritResult
          (classifyParents pkg map node.parents (k :: visiting) cache).1 =
            ⟨RuntimeClass.buildTime, "Transitive of build-time dependency"⟩ := by
        rw [inheritResult, if_neg hnoRT, if_pos hBT]
      rw [hres]
      exact ⟨cycleCacheGood_alSet_buildTime ihgood _ _ rfl, fun _ => rfl⟩
    · exact ⟨cycleCacheGood_alSet_notMem ihgood hk _, fun hk' => absurd hk' hk⟩
  · intro visiting cache hgood
    rw [classifyParents_nil pkg map visiting cache]
    exact ⟨hgood, fun _ cls hcls => absurd hcls (List.not_mem_nil _)⟩
  · intro visiting cache p rest hnone ih hgood
    rw [classifyParents_cons_none pkg map p rest visiting cache hnone]
    obtain ⟨ihgood, ihall⟩ := ih hgood
    exact ⟨ihgood, fun hall cls hcls =>
      ihall (fun q hq => hall q (List.mem_cons_of_mem _ hq)) cls hcls⟩
  · intro visiting cache p rest val hval stepP ih1 ih2 hgood
    rw [classifyParents_cons_some pkg map p rest visiting cache val hval]
    obtain ⟨pgood, pclass⟩ := ih1 hgood
    obtain ⟨rgood, rall⟩ := ih2 pgood
    refine ⟨rgood, fun hall cls hcls => ?_⟩
    rcases List.mem_cons.mp hcls with rfl | hcls
    · exact pclass (hall p (List.mem_cons_self _ _))
    · exact rall (fun q hq => hall q (List.mem_cons_of_mem _ hq)) cls hcls

/-! ### Claim C4 -/

/-- Concrete graph for claim C4: `r` is a declared runtime dependency;
`a@1` and `b@1` form a parent-edge cycle, and `a@1` additionally has the
runtime node `r@1` as a parent. -/
def c4Pkg : Pkg := ⟨some [("r", "1")], none⟩

def c4Map : NodeMap :=
  [("r@1", ⟨"r", "1", "r@1", 1, [], [], none⟩),
   ("a@1", ⟨"a", "1", "a@1", 2, ["b@1", "r@1"], [], none⟩),
   ("b@1", ⟨"b", "1", "b@1", 3, ["a@1"], [], none⟩)]

/-- An isolated two-node parent-edge cycle with no outside parents, for the
amended claim. -/
def c4CycleMap : NodeMap :=
  [("x@1", ⟨"x", "1", "x@1", 2, ["y@1"], [], none⟩),
   ("y@1", ⟨"y", "1", "y@1", 2, ["x@1"], [], none⟩)]

unseal classifyRuntime classifyParents in
/-- Claim C4, as stated, is false: in `c4Map` the nodes `a@1` and `b@1`
are members of a dependency cycle (each is a parent of the other and
neither is directly declared), the classifier terminates on this cyclic
graph, yet `a@1` is classified `runtime` — not `build-time` — because its
second parent `r@1` is a declared runtime dependency. -/
theorem classifyRuntime_counterexample :
    ((alGet c4Map "a@1").map NodeInfo.parents = some ["b@1", "r@1"] ∧
      (alGet c4Map "b@1").map NodeInfo.parents = some ["a@1"] ∧
      isDirectDependency "a" c4Pkg = false ∧
      isDirectDependency "b" c4Pkg = false) ∧
    (classifyRuntime c4Pkg c4Map "a@1" [] []).1.classification
      = RuntimeClass.runtime ∧
    ¬ (classifyRuntime c4Pkg c4Map "a@1" [] []).1.classification
      = RuntimeClass.buildTime := by
  decide

unseal classifyRuntime classifyParents in
/-- Claim C4 (amended): `classifyRuntime` terminates on every finite node
map (it is a total function, including on cyclic parent graphs); a node
whose classification is re-entered while already in progress is memoized
with the conservative build-time cycle fallback; every member of every
*isolated* dependency cycle (each member present in the map, none
directly declared, each with at least one parent and all parents inside
the cycle) is classified build-time, from any in-progress set and any
memo holding no non-build-time entry for a cycle member; and running the
classifier again over the memo produced by a first run yields the
identical result, so the classification is a deterministic function of
graph and manifest.  (A cycle member with a runtime parent outside the
cycle is classified runtime, not build-time, per
`classifyRuntime_counterexample`.) -/
theorem classifyRuntime_amended (pkg : Pkg) (map : NodeMap) (k : String)
    (vis vis' : List String) (cache : RtCache) (node : NodeInfo) :
    (alGet cache k = none → alGet map k = some node →
      truthy (pkg.dependencies.bind (fun d => alGet d node.name)) = false →
      truthy (pkg.devDependencies.bind (fun d => alGet d node.name)) = false →
      k ∈ vis →
      classifyRuntime pkg map k vis cache =
        (⟨RuntimeClass.buildTime, "Dependency cycle; defaulting to build-time"⟩,
         alSet cache k
           ⟨RuntimeClass.buildTime, "Dependency cycle; defaulting to build-time"⟩)) ∧
    (classifyRuntime pkg map k vis'
        (classifyRuntime pkg map k vis cache).2
      = classifyRuntime pkg map k vis cache) ∧
    (∀ (C : List String), isolatedCycleB pkg map C = true →
      ∀ (cache' : RtCache), cycleCacheGood C cache' →
        ∀ k' ∈ C, ∀ (visiting : List String),
          (classifyRuntime pkg map k' visiting cache').1.classification
            = RuntimeClass.buildTime) := by
  refine ⟨?_, classifyRuntime_idem pkg map k vis vis' cache,
    fun C hiso cache' hgood k' hk' visiting =>
      ((classifyRuntime_isolatedCycle pkg map C hiso).1 k' visiting cache'
        hgood).2 hk'⟩
  intro hc hg h1 h2 hv
  rw [classifyRuntime]
  split
  · next cached heq =>
      rw [hc] at heq
      cases heq
  · split
    · next heq =>
        rw [hg] at heq
        cases heq
    · next node' hget =>
        rw [hg] at hget
        cases hget
        rw [if_neg (by simp [h1]), if_neg (by simp [h2]), dif_pos hv]

/-- Witness for `classifyRuntime_amended`: the re-entry branch, the
idempotence equation, and the universal isolated-cycle conjunct applied
at the concrete two-node cycle `x@1 ↔ y@1`. -/
theorem classifyRuntime_amended_witness :
    (classifyRuntime c4Pkg c4CycleMap "x@1" ["x@1"] [] =
      (⟨RuntimeClass.buildTime, "Dependency cycle; defaulting to build-time"⟩,
       alSet []
         "x@1" ⟨RuntimeClass.buildTime, "Dependency cycle; defaulting to build-time"⟩)) ∧
    (classifyRuntime c4Pkg c4CycleMap "x@1" []
        (classifyRuntime c4Pkg c4CycleMap "x@1" [] []).2
      = classifyRuntime c4Pkg c4CycleMap "x@1" [] []) ∧
    (classifyRuntime c4Pkg c4CycleMap "x@1" [] []).1.classification
      = RuntimeClass.buildTime ∧
    (classifyRuntime c4Pkg c4CycleMap "y@1" [] []).1.classification
      = RuntimeClass.buildTime :=
  ⟨(classifyRuntime_amended c4Pkg c4CycleMap "x@1" ["x@1"] [] []
      ⟨"x", "1", "x@1", 2, ["y@1"], [], none⟩).1
      (by decide) (by decide) (by decide) (by decide) (by decide),
   (classifyRuntime_amended c4Pkg c4CycleMap "x@1" [] [] []
      ⟨"x", "1", "x@1", 2, ["y@1"], [], none⟩).2.1,
   (classifyRuntime_amended c4Pkg c4CycleMap "x@1" [] [] []
      ⟨"x", "1", "x@1", 2, ["y@1"], [], none⟩).2.2
      ["x@1", "y@1"] (by decide) [] (cycleCacheGood_nil _)
      "x@1" (by decide) [],
   (classifyRuntime_amended c4Pkg c4CycleMap "x@1" [] [] []
      ⟨"x", "1", "x@1", 2, ["y@1"], [], none⟩).2.2
      ["x@1", "y@1"] (by decide) [] (cycleCacheGood_nil _)
      "y@1" (by decide) []⟩

/-! ## Graph Builder (`buildNodeMap`, src/aggregator.ts 337–393)

The raw `npm ls` payload is an arbitrary JSON tree of
`{name?, version?, dev?, dependencies?}` objects.  `RawDeps` embeds a
`dependencies` object: each entry carries its key (`depName`) and either a
null/falsy value (`consNull`, which the traversal's `!node` guard skips) or
a child object (`consNode`). -/

mutual

inductive RawNode where
  | mk (name : Option String) (version : Option String) (dev : Option Bool)
      (dependencies : Option RawDeps)
deriving Repr

inductive RawDeps where
  | nil
  | consNull (depName : String) (rest : RawDeps)
  | consNode (depName : String) (child : RawNode) (rest : RawDeps)
deriving Repr

end

def RawNode.nameField : RawNode → Option String
  | RawNode.mk n _ _ _ => n

def RawNode.versionField : RawNode → Option String
  | RawNode.mk _ v _ _ => v

/-- `node?.name || providedName` (JS `||` treats `""` as falsy). -/
def effName (nm : Option String) (provided : String) : String :=
  match nm with
  | some s => if s = "" then provided else s
  | none => provided

/-- `node.version || 'unknown'`. -/
def effVersion (vr : Option String) : String :=
  match vr with
  | some s => if s = "" then "unknown" else s
  | none => "unknown"

/-- `child?.version || 'unknown'` for a dependencies-object entry. -/
def childVersionOf : Option RawNode → String
  | none => "unknown"
  | some c => effVersion c.versionField

/-- `const current = map.get(key); if (current) current.children.add(childKey);` -/
def addChildEdge (map : NodeMap) (key childKey : String) : NodeMap :=
  match alGet map key with
  | none => map
  | some current =>
      alSet map key { current with children := addUnique current.children childKey }

/-- The create-or-revisit step of `traverse` (src/aggregator.ts 345–361):
on first visit create the node at the current depth with the one incoming
parent edge; on revisit keep the minimum depth, add the new parent edge,
and fill in a previously unknown `dev` flag, discarding nothing. -/
def upsertNode (map : NodeMap) (key nodeName version : String) (depth : Nat)
    (pk : Option String) (dv : Option Bool) : NodeMap :=
  match alGet map key with
  | none =>
      alSet map key
        ⟨nodeName, version, key, depth,
          (match pk with | some p => [p] | none => []), [], dv⟩
  | some existing =>
      alSet map key
        { existing with
            depth := min existing.depth depth
            parents :=
              (match pk with
               | some p => addUnique existing.parents p
               | none => existing.parents)
            dev :=
              (match existing.dev with
               | none => dv
               | some b => some b) }

mutual

/-- The recursive `traverse` of `buildNodeMap`: resolve the node's
effective name (skipping unnamed/null nodes), create the node at the
current depth on first visit or lower the depth / add the parent edge on
revisit, then walk the dependencies object, recording each child edge
before recursing into the child. -/
def traverseNode (node : RawNode) (depth : Nat) (parentKey : Option String)
    (providedName : String) (map : NodeMap) : NodeMap :=
  match node with
  | RawNode.mk nm vr dv deps =>
      let nodeName := effName nm providedName
      if nodeName = "" then map
      else
        let version := effVersion vr
        let key := nodeName ++ "@" ++ version
        let map1 := upsertNode map key nodeName version depth parentKey dv
        match deps with
        | none => map1
        | some ds => traverseDeps ds depth key map1

/-- The `Object.entries(node.dependencies).forEach` loop of `traverse`:
record the child edge under the parent's key, then recurse into non-null
children one depth lower. -/
def traverseDeps (ds : RawDeps) (depth : Nat) (key : String) (map : NodeMap) :
    NodeMap :=
  match ds with
  | RawDeps.nil => map
  | RawDeps.consNull depName rest =>
      let childKey := depName ++ "@" ++ childVersionOf none
      let map1 := addChildEdge map key childKey
      traverseDeps rest depth key map1
  | RawDeps.consNode depName child rest =>
      let childKey := depName ++ "@" ++ childVersionOf (some child)
      let map1 := addChildEdge map key childKey
      let map2 := traverseNode child (depth + 1) (some key) depName map1
      traverseDeps rest depth key map2

end

/-- The raw `npm ls` payload: a JSON object whose `dependencies` field may
be absent/falsy (`none`) or an object (`some`, possibly empty — an empty
object is still truthy in JS). -/
inductive LsData where
  | mk (dependencies : Option RawDeps)
deriving Repr

/-- The top-level `Object.entries(lsData.dependencies).forEach` of
`buildNodeMap`: every top-level entry is traversed at depth 1 with no
parent key. -/
def traverseTop (ds : RawDeps) (map : NodeMap) : NodeMap :=
  match ds with
  | RawDeps.nil => map
  | RawDeps.consNull _ rest => traverseTop rest map
  | RawDeps.consNode depName child rest =>
      traverseTop rest (traverseNode child 1 none depName map)

/-- The flat-manifest fallback loops of `buildNodeMap` (lines 377–389):
one node per declared name at depth 1, keyed `name@range`, with no edges. -/
def fallbackEntries (l : List (String × String)) (dev : Bool) (map : NodeMap) :
    NodeMap :=
  l.foldl
    (fun m p =>
      alSet m (p.1 ++ "@" ++ p.2)
        ⟨p.1, p.2, p.1 ++ "@" ++ p.2, 1, [], [], some dev⟩)
    map

/-- `buildNodeMap` (src/aggregator.ts 337–393). -/
def buildNodeMap (lsData : Option LsData) (pkg : Pkg) : NodeMap :=
  match lsData with
  | some (LsData.mk (some ds)) => traverseTop ds []
  | _ =>
      fallbackEntries (pkg.devDependencies.getD [])
        true
        (fallbackEntries (pkg.dependencies.getD []) false [])

/-! ### Occurrences of an identity in the raw tree

An occurrence of identity key `k` at depth `d` is a (possibly unnamed)
tree position whose effective `name@version` identity is `k` and whose
distance from a top-level entry is `d` (top-level entries at depth 1).
Occurrences are collected through every node, including below nodes with
no resolvable name, so they are a property of the tree itself, independent
of the traversal. -/

mutual

def occNode (node : RawNode) (depth : Nat) (provided : String) :
    List (String × Nat) :=
  match node with
  | RawNode.mk nm vr _ deps =>
      (if effName nm provided = "" then []
       else [(effName nm provided ++ "@" ++ effVersion vr, depth)]) ++
      (match deps with
       | none => []
       | some ds => occDeps ds (depth + 1))

def occDeps (ds : RawDeps) (depth : Nat) : List (String × Nat) :=
  match ds with
  | RawDeps.nil => []
  | RawDeps.consNull _ rest => occDeps rest depth
  | RawDeps.consNode depName child rest =>
      occNode child depth depName ++ occDeps rest depth

end

/-- Minimum of two optional naturals, treating `none` as +∞. -/
def natMinOpt : Option Nat → Option Nat → Option Nat
  | none, b => b
  | some a, none => some a
  | some a, some b => some (min a b)

/-- Minimum depth among the occurrences of key `k`. -/
def minOcc : List (String × Nat) → String → Option Nat
  | [], _ => none
  | (k', d) :: rest, k =>
      if k' = k then natMinOpt (some d) (minOcc rest k) else minOcc rest k

/-- The depth recorded for key `k` in a node map, if present. -/
def depthAt (map : NodeMap) (k : String) : Option Nat :=
  (alGet map k).map NodeInfo.depth

mutual

/-- Well-formed payload for the minimum-depth claim: every tree node has a
resolvable (nonempty) effective name, so the traversal skips nothing. -/
def wfNode (node : RawNode) (provided : String) : Bool :=
  match node with
  | RawNode.mk nm _ _ deps =>
      (effName nm provided ≠ "") &&
        (match deps with
         | none => true
         | some ds => wfDeps ds)

def wfDeps (ds : RawDeps) : Bool :=
  match ds with
  | RawDeps.nil => true
  | RawDeps.consNull _ rest => wfDeps rest
  | RawDeps.consNode depName child rest => wfNode child depName && wfDeps rest

end

theorem natMinOpt_none_right (a : Option Nat) : natMinOpt a none = a := by
  cases a <;> rfl

theorem natMinOpt_assoc (a b c : Option Nat) :
    natMinOpt (natMinOpt a b) c = natMinOpt a (natMinOpt b c) := by
  cases a <;> cases b <;> cases c <;> simp [natMinOpt, Nat.min_assoc]

theorem minOcc_append (l₁ l₂ : List (String × Nat)) (k : String) :
    minOcc (l₁ ++ l₂) k = natMinOpt (minOcc l₁ k) (minOcc l₂ k) := by
  induction l₁ with
  | nil => simp [minOcc, natMinOpt]
  | cons hd tl ih =>
      obtain ⟨k', d⟩ := hd
      by_cases h : k' = k
      · simp [minOcc, h, ih, natMinOpt_assoc]
      · simp [minOcc, h, ih]

theorem minOcc_single (k' : String) (d : Nat) (k : String) :
    minOcc [(k', d)] k = if k' = k then some d else none := by
  by_cases h : k' = k <;> simp [minOcc, h, natMinOpt]

theorem depthAt_addChildEdge (map : NodeMap) (key childKey k : String) :
    depthAt (addChildEdge map key childKey) k = depthAt map k := by
  unfold addChildEdge
  cases hc : alGet map key with
  | none => rfl
  | some current =>
      by_cases hk : key = k
      · subst hk
        simp [depthAt, alGet_alSet_self, hc]
      · simp [depthAt, alGet_alSet_ne _ _ _ _ hk]

theorem alGet_addChildEdge_ne (map : NodeMap) (key childKey k : String)
    (h : key ≠ k) : alGet (addChildEdge map key childKey) k = alGet map k := by
  unfold addChildEdge
  cases alGet map key with
  | none => rfl
  | some current => exact alGet_alSet_ne _ _ _ _ h

theorem alGet_addChildEdge_self {map : NodeMap} {key : String} {cur : NodeInfo}
    (childKey : String) (h : alGet map key = some cur) :
    alGet (addChildEdge map key childKey) key
      = some { cur with children := addUnique cur.children childKey } := by
  unfold addChildEdge
  rw [h]
  exact alGet_alSet_self _ _ _

/-- Step equation for `traverseNode` at a constructor. -/
theorem traverseNode_mk (nm vr : Option String) (dv : Option Bool)
    (deps : Option RawDeps) (depth : Nat) (pk : Option String)
    (provided : String) (map : NodeMap) :
    traverseNode (RawNode.mk nm vr dv deps) depth pk provided map =
      (if effName nm provided = "" then map
       else
        match deps with
        | none =>
            upsertNode map (effName nm provided ++ "@" ++ effVersion vr)
              (effName nm provided) (effVersion vr) depth pk dv
        | some ds =>
            traverseDeps ds depth (effName nm provided ++ "@" ++ effVersion vr)
              (upsertNode map (effName nm provided ++ "@" ++ effVersion vr)
                (effName nm provided) (effVersion vr) depth pk dv)) := by
  rw [traverseNode.eq_def]

/-- Step equations for `traverseDeps`. -/
theorem traverseDeps_nil (depth : Nat) (key : String) (map : NodeMap) :
    traverseDeps RawDeps.nil depth key map = map := by
  rw [traverseDeps.eq_def]

theorem traverseDeps_consNull (depName : String) (rest : RawDeps) (depth : Nat)
    (key : String) (map : NodeMap) :
    traverseDeps (RawDeps.consNull depName rest) depth key map =
      traverseDeps rest depth key
        (addChildEdge map key (depName ++ "@" ++ childVersionOf none)) := by
  rw [traverseDeps.eq_def]

theorem traverseDeps_consNode (depName : String) (child : RawNode)
    (rest : RawDeps) (depth : Nat) (key : String) (map : NodeMap) :
    traverseDeps (RawDeps.consNode depName child rest) depth key map =
      traverseDeps rest depth key
        (traverseNode child (depth + 1) (some key) depName
          (addChildEdge map key
            (depName ++ "@" ++ childVersionOf (some child)))) := by
  rw [traverseDeps.eq_def]

/-- `upsertNode` never raises a recorded depth and never discards a parent
or child edge of any node. -/
theorem upsertNode_mono (map : NodeMap) (key nodeName version : String)
    (depth : Nat) (pk : Option String) (dv : Option Bool) (k : String)
    (e : NodeInfo) (he : alGet map k = some e) :
    ∃ e', alGet (upsertNode map key nodeName version depth pk dv) k = some e' ∧
      e'.depth ≤ e.depth ∧ (∀ x ∈ e.parents, x ∈ e'.parents) ∧
      (∀ x ∈ e.children, x ∈ e'.children) := by
  unfold upsertNode
  by_cases hk : key = k
  · subst hk
    rw [he]
    refine ⟨_, alGet_alSet_self _ _ _, min_le_left _ _, ?_, fun x hx => hx⟩
    intro x hx
    cases pk with
    | none => exact hx
    | some p => exact mem_addUnique.mpr (Or.inl hx)
  · cases alGet map key with
    | none =>
        rw [alGet_alSet_ne _ _ _ _ hk, he]
        exact ⟨e, rfl, le_refl _, fun x hx => hx, fun x hx => hx⟩
    | some existing =>
        rw [alGet_alSet_ne _ _ _ _ hk, he]
        exact ⟨e, rfl, le_refl _, fun x hx => hx, fun x hx => hx⟩

/-- `addChildEdge` never raises a depth and never discards an edge. -/
theorem addChildEdge_mono (map : NodeMap) (key childKey : String) (k : String)
    (e : NodeInfo) (he : alGet map k = some e) :
    ∃ e', alGet (addChildEdge map key childKey) k = some e' ∧
      e'.depth ≤ e.depth ∧ (∀ x ∈ e.parents, x ∈ e'.parents) ∧
      (∀ x ∈ e.children, x ∈ e'.children) := by
  by_cases hk : key = k
  · subst hk
    rw [alGet_addChildEdge_self _ he]
    exact ⟨_, rfl, le_refl _, fun x hx => hx,
      fun x hx => mem_addUnique.mpr (Or.inl hx)⟩
  · rw [alGet_addChildEdge_ne _ _ _ _ hk, he]
    exact ⟨e, rfl, le_refl _, fun x hx => hx, fun x hx => hx⟩

mutual

/-- Traversal never deletes a node, never raises a recorded depth, and
never discards a recorded parent or child edge. -/
theorem traverseNode_mono :
    ∀ (node : RawNode) (depth : Nat) (pk : Option String) (provided : String)
      (map : NodeMap) (k : String) (e : NodeInfo), alGet map k = some e →
      ∃ e', alGet (traverseNode node depth pk provided map) k = some e' ∧
        e'.depth ≤ e.depth ∧ (∀ x ∈ e.parents, x ∈ e'.parents) ∧
        (∀ x ∈ e.children, x ∈ e'.children)
  | RawNode.mk nm vr dv deps, depth, pk, provided, map, k, e, he => by
      rw [traverseNode_mk]
      by_cases hname : effName nm provided = ""
      · rw [if_pos hname]
        exact ⟨e, he, le_refl _, fun x hx => hx, fun x hx => hx⟩
      · rw [if_neg hname]
        obtain ⟨e1, he1, hd1, hp1, hc1⟩ :=
          upsertNode_mono map (effName nm provided ++ "@" ++ effVersion vr)
            (effName nm provided) (effVersion vr) depth pk dv k e he
        cases deps with
        | none => exact ⟨e1, he1, hd1, hp1, hc1⟩
        | some ds =>
            obtain ⟨e2, he2, hd2, hp2, hc2⟩ :=
              traverseDeps_mono ds depth
                (effName nm provided ++ "@" ++ effVersion vr) _ k e1 he1
            exact ⟨e2, he2, le_trans hd2 hd1,
              fun x hx => hp2 x (hp1 x hx), fun x hx => hc2 x (hc1 x hx)⟩

theorem traverseDeps_mono :
    ∀ (ds : RawDeps) (depth : Nat) (key : String) (map : NodeMap) (k : String)
      (e : NodeInfo), alGet map k = some e →
      ∃ e', alGet (traverseDeps ds depth key map) k = some e' ∧
        e'.depth ≤ e.depth ∧ (∀ x ∈ e.parents, x ∈ e'.parents) ∧
        (∀ x ∈ e.children, x ∈ e'.children)
  | RawDeps.nil, depth, key, map, k, e, he =>
      ⟨e, he, le_refl _, fun x hx => hx, fun x hx => hx⟩
  | RawDeps.consNull depName rest, depth, key, map, k, e, he => by
      rw [traverseDeps_consNull]
      obtain ⟨e1, he1, hd1, hp1, hc1⟩ :=
        addChildEdge_mono map key (depName ++ "@" ++ childVersionOf none) k e he
      obtain ⟨e2, he2, hd2, hp2, hc2⟩ := traverseDeps_mono rest depth key _ k e1 he1
      exact ⟨e2, he2, le_trans hd2 hd1,
        fun x hx => hp2 x (hp1 x hx), fun x hx => hc2 x (hc1 x hx)⟩
  | RawDeps.consNode depName child rest, depth, key, map, k, e, he => by
      rw [traverseDeps_consNode]
      obtain ⟨e1, he1, hd1, hp1, hc1⟩ :=
        addChildEdge_mono map key (depName ++ "@" ++ childVersionOf (some child)) k e he
      obtain ⟨e2, he2, hd2, hp2, hc2⟩ :=
        traverseNode_mono child (depth + 1) (some key) depName _ k e1 he1
      obtain ⟨e3, he3, hd3, hp3, hc3⟩ := traverseDeps_mono rest depth key _ k e2 he2
      exact ⟨e3, he3, le_trans hd3 (le_trans hd2 hd1),
        fun x hx => hp3 x (hp2 x (hp1 x hx)),
        fun x hx => hc3 x (hc2 x (hc1 x hx))⟩

end

theorem occNode_mk (nm vr : Option String) (dv : Option Bool)
    (deps : Option RawDeps) (depth : Nat) (provided : String) :
    occNode (RawNode.mk nm vr dv deps) depth provided =
      (if effName nm provided = "" then []
       else [(effName nm provided ++ "@" ++ effVersion vr, depth)]) ++
      (match deps with
       | none => []
       | some ds => occDeps ds (depth + 1)) := by
  rw [occNode.eq_def]

theorem occDeps_nil (depth : Nat) : occDeps RawDeps.nil depth = [] := by
  rw [occDeps.eq_def]

theorem occDeps_consNull (depName : String) (rest : RawDeps) (depth : Nat) :
    occDeps (RawDeps.consNull depName rest) depth = occDeps rest depth := by
  rw [occDeps.eq_def]

theorem occDeps_consNode (depName : String) (child : RawNode) (rest : RawDeps)
    (depth : Nat) :
    occDeps (RawDeps.consNode depName child rest) depth =
      occNode child depth depName ++ occDeps rest depth := by
  rw [occDeps.eq_def]

theorem wfNode_mk (nm vr : Option String) (dv : Option Bool)
    (deps : Option RawDeps) (provided : String) :
    wfNode (RawNode.mk nm vr dv deps) provided =
      ((effName nm provided ≠ "") &&
        (match deps with
         | none => true
         | some ds => wfDeps ds)) := by
  rw [wfNode.eq_def]

theorem wfDeps_consNull (depName : String) (rest : RawDeps) :
    wfDeps (RawDeps.consNull depName rest) = wfDeps rest := by
  rw [wfDeps.eq_def]

theorem wfDeps_consNode (depName : String) (child : RawNode) (rest : RawDeps) :
    wfDeps (RawDeps.consNode depName child rest) =
      (wfNode child depName && wfDeps rest) := by
  rw [wfDeps.eq_def]

/-- Depth recorded by one create-or-revisit step: the minimum of the
previously recorded depth (if any) and the current depth (if the key is the
visited one). -/
theorem depthAt_upsertNode (map : NodeMap) (key nodeName version : String)
    (depth : Nat) (pk : Option String) (dv : Option Bool) (k : String) :
    depthAt (upsertNode map key nodeName version depth pk dv) k =
      natMinOpt (depthAt map k) (if key = k then some depth else none) := by
  unfold upsertNode
  by_cases hk : key = k
  · subst hk
    cases hget : alGet map key with
    | none => simp [depthAt, alGet_alSet_self, hget, natMinOpt]
    | some existing => simp [depthAt, alGet_alSet_self, hget, natMinOpt]
  · cases hget : alGet map key with
    | none => simp [depthAt, alGet_alSet_ne _ _ _ _ hk, hk, natMinOpt_none_right]
    | some existing => simp [depthAt, alGet_alSet_ne _ _ _ _ hk, hk, natMinOpt_none_right]

mutual

/-- The depth recorded after traversing a well-formed subtree is the
minimum of the previously recorded depth and the depths of the key's
occurrences in that subtree. -/
theorem depthAt_traverseNode :
    ∀ (node : RawNode) (depth : Nat) (pk : Option String) (provided : String)
      (map : NodeMap) (k : String), wfNode node provided = true →
      depthAt (traverseNode node depth pk provided map) k
        = natMinOpt (depthAt map k) (minOcc (occNode node depth provided) k)
  | RawNode.mk nm vr dv deps, depth, pk, provided, map, k, hwf => by
      rw [wfNode_mk, Bool.and_eq_true] at hwf
      have hname : effName nm provided ≠ "" := by simpa using hwf.1
      rw [traverseNode_mk, if_neg hname, occNode_mk, if_neg hname]
      cases deps with
      | none =>
          rw [depthAt_upsertNode]
          simp only [List.append_nil]
          rw [minOcc_single]
      | some ds =>
          have hwfds : wfDeps ds = true := hwf.2
          rw [depthAt_traverseDeps ds (depth) _ _ k hwfds,
            depthAt_upsertNode, natMinOpt_assoc, minOcc_append, minOcc_single]

theorem depthAt_traverseDeps :
    ∀ (ds : RawDeps) (depth : Nat) (key : String) (map : NodeMap) (k : String),
      wfDeps ds = true →
      depthAt (traverseDeps ds depth key map) k
        = natMinOpt (depthAt map k) (minOcc (occDeps ds (depth + 1)) k)
  | RawDeps.nil, depth, key, map, k, _ => by
      rw [traverseDeps_nil, occDeps_nil]
      simp [minOcc, natMinOpt_none_right]
  | RawDeps.consNull depName rest, depth, key, map, k, hwf => by
      rw [wfDeps_consNull] at hwf
      rw [traverseDeps_consNull, occDeps_consNull,
        depthAt_traverseDeps rest depth key _ k hwf, depthAt_addChildEdge]
  | RawDeps.consNode depName child rest, depth, key, map, k, hwf => by
      rw [wfDeps_consNode, Bool.and_eq_true] at hwf
      rw [traverseDeps_consNode, occDeps_consNode,
        depthAt_traverseDeps rest depth key _ k hwf.2,
        depthAt_traverseNode child (depth + 1) (some key) depName _ k hwf.1,
        depthAt_addChildEdge, minOcc_append, natMinOpt_assoc]

end

/-- Top-level: after traversing all top-level entries at depth 1, the
recorded depth of any key is the minimum over its occurrences in the whole
payload (merged with whatever the starting map recorded). -/
theorem depthAt_traverseTop :
    ∀ (ds : RawDeps) (map : NodeMap) (k : String), wfDeps ds = true →
      depthAt (traverseTop ds map) k
        = natMinOpt (depthAt map k) (minOcc (occDeps ds 1) k)
  | RawDeps.nil, map, k, _ => by
      rw [occDeps_nil]
      simp [traverseTop, minOcc, natMinOpt_none_right]
  | RawDeps.consNull depName rest, map, k, hwf => by
      rw [wfDeps_consNull] at hwf
      rw [occDeps_consNull]
      have : traverseTop (RawDeps.consNull depName rest) map
          = traverseTop rest map := by
        rw [traverseTop]
      rw [this]
      exact depthAt_traverseTop rest map k hwf
  | RawDeps.consNode depName child rest, map, k, hwf => by
      rw [wfDeps_consNode, Bool.and_eq_true] at hwf
      have : traverseTop (RawDeps.consNode depName child rest) map
          = traverseTop rest (traverseNode child 1 none depName map) := by
        rw [traverseTop]
      rw [this, occDeps_consNode, depthAt_traverseTop rest _ k hwf.2,
        depthAt_traverseNode child 1 none depName map k hwf.1,
        minOcc_append, natMinOpt_assoc]

/-! ### Claim C2 -/

/-- A leaf with version `"1"` and no name of its own. -/
def c2Leaf : RawNode := RawNode.mk none (some "1") none none

/-- Concrete payload for the C2 counterexample: the first top-level entry
is keyed `""` and carries no `name` field, so the traversal skips it (and
its subtree, where `b@1` occurs at depth 2); the second top-level entry
`c` reaches `b@1` only at depth 3. -/
def c2SkipTree : RawDeps :=
  RawDeps.consNode ""
    (RawNode.mk none (some "1") none (some (RawDeps.consNode "b" c2Leaf RawDeps.nil)))
    (RawDeps.consNode "c"
      (RawNode.mk none (some "1") none
        (some (RawDeps.consNode "x"
          (RawNode.mk none (some "1") none
            (some (RawDeps.consNode "b" c2Leaf RawDeps.nil)))
          RawDeps.nil)))
      RawDeps.nil)

/-- Claim C2, as stated, is false: in `c2SkipTree` the identity `b@1`
occurs at depth 2 (inside the subtree of a top-level entry with no
resolvable name) and at depth 3, but the node map records depth 3, because
the traversal returns without recursing when a node's effective name is
empty. -/
theorem buildNodeMap_minDepth_counterexample :
    depthAt (buildNodeMap (some (LsData.mk (some c2SkipTree))) ⟨none, none⟩)
        "b@1" = some 3 ∧
    minOcc (occDeps c2SkipTree 1) "b@1" = some 2 ∧
    ¬ depthAt (buildNodeMap (some (LsData.mk (some c2SkipTree))) ⟨none, none⟩)
        "b@1" = minOcc (occDeps c2SkipTree 1) "b@1" := by
  decide

/-- Claim C2 (amended): (1) for every payload in which each tree node has
a resolvable (nonempty) effective name, the depth recorded for every key
in the built node map is exactly the minimum, over all occurrences of that
`name@version` identity in the tree, of the occurrence's distance from a
top-level entry (top-level entries at depth 1) — and a key is present iff
it occurs; (2) re-encountering an already-known identity keeps the minimum
of the existing and the new depth and adds the new parent edge, leaving
name, version, key and children untouched; (3) the traversal never raises
a recorded depth and never discards a previously recorded parent or child
edge of any node. -/
theorem buildNodeMap_minDepth_amended :
    (∀ (ds : RawDeps) (pkg : Pkg) (k : String), wfDeps ds = true →
      depthAt (buildNodeMap (some (LsData.mk (some ds))) pkg) k
        = minOcc (occDeps ds 1) k) ∧
    (∀ (map : NodeMap) (key nodeName version : String) (depth : Nat)
      (p : String) (dv : Option Bool) (existing : NodeInfo),
      alGet map key = some existing →
      alGet (upsertNode map key nodeName version depth (some p) dv) key
        = some { existing with
                   depth := min existing.depth depth
                   parents := addUnique existing.parents p
                   dev := (match existing.dev with
                           | none => dv
                           | some b => some b) }) ∧
    (∀ (node : RawNode) (depth : Nat) (pk : Option String) (provided : String)
      (map : NodeMap) (k : String) (e : NodeInfo), alGet map k = some e →
      ∃ e', alGet (traverseNode node depth pk provided map) k = some e' ∧
        e'.depth ≤ e.depth ∧ (∀ x ∈ e.parents, x ∈ e'.parents) ∧
        (∀ x ∈ e.children, x ∈ e'.children)) := by
  refine ⟨?_, ?_, traverseNode_mono⟩
  · intro ds pkg k hwf
    have : buildNodeMap (some (LsData.mk (some ds))) pkg = traverseTop ds [] := by
      rw [buildNodeMap]
    rw [this, depthAt_traverseTop ds [] k hwf]
    rfl
  · intro map key nodeName version depth p dv existing he
    unfold upsertNode
    rw [he]
    exact alGet_alSet_self _ _ _

/-- A well-formed diamond payload: top-level `a` and `b`; `a` depends on
`d` which depends on `c`; `b` depends on `c` directly, so `c@1` occurs at
depths 3 and 2. -/
def c2Diamond : RawDeps :=
  RawDeps.consNode "a"
    (RawNode.mk none (some "1") none
      (some (RawDeps.consNode "d"
        (RawNode.mk none (some "1") none
          (some (RawDeps.consNode "c" c2Leaf RawDeps.nil)))
        RawDeps.nil)))
    (RawDeps.consNode "b"
      (RawNode.mk none (some "1") none
        (some (RawDeps.consNode "c" c2Leaf RawDeps.nil)))
      RawDeps.nil)

/-- Witness for `buildNodeMap_minDepth_amended` at the concrete diamond
payload: `c@1`'s recorded depth is the minimum occurrence depth 2, and one
concrete revisit keeps the minimum depth and adds the parent edge. -/
theorem buildNodeMap_minDepth_amended_witness :
    (wfDeps c2Diamond = true ∧
      depthAt (buildNodeMap (some (LsData.mk (some c2Diamond))) ⟨none, none⟩)
          "c@1" = minOcc (occDeps c2Diamond 1) "c@1") ∧
    alGet
        (upsertNode [("c@1", ⟨"c", "1", "c@1", 3, ["d@1"], [], none⟩)]
          "c@1" "c" "1" 2 (some "b@1") none) "c@1"
      = some ⟨"c", "1", "c@1", 2, ["d@1", "b@1"], [], none⟩ :=
  ⟨⟨by decide,
    buildNodeMap_minDepth_amended.1 c2Diamond ⟨none, none⟩ "c@1" (by decide)⟩,
   buildNodeMap_minDepth_amended.2.1 _ "c@1" "c" "1" 2 "b@1" none
     ⟨"c", "1", "c@1", 3, ["d@1"], [], none⟩ (by decide)⟩

/-! ### Claim C3: mutual consistency of parent/child edges -/

/-- Every child edge is mirrored by a parent edge, except possibly the
single `pending` pair (the edge recorded just before the child itself is
visited). -/
def ChildLinked (map : NodeMap) (pending : Option (String × String)) : Prop :=
  ∀ (a : String) (A : NodeInfo), alGet map a = some A →
    ∀ c ∈ A.children,
      pending = some (a, c) ∨ ∃ B, alGet map c = some B ∧ a ∈ B.parents

/-- Every parent edge is mirrored by a child edge. -/
def ParentLinked (map : NodeMap) : Prop :=
  ∀ (b : String) (B : NodeInfo), alGet map b = some B →
    ∀ q ∈ B.parents, ∃ A, alGet map q = some A ∧ b ∈ A.children

/-- The invariant of claim C3. -/
def MutuallyConsistent (map : NodeMap) : Prop :=
  ChildLinked map none ∧ ParentLinked map

theorem ChildLinked.weaken {map : NodeMap} {pending : Option (String × String)}
    (h : ChildLinked map none) : ChildLinked map pending := by
  intro a A hA c hc
  rcases h a A hA c hc with h' | h'
  · cases h'
  · exact Or.inr h'

/-- The effective identity key a `traverse` call computes for a raw node. -/
def rawKeyOf (node : RawNode) (provided : String) : String :=
  effName node.nameField provided ++ "@" ++ effVersion node.versionField

/-- Precondition of a recursive `traverse` call: with a parent key `p`, the
map is consistent except possibly the just-recorded `(p, key)` child edge,
and `p`'s node does record `key` as a child. -/
def TraversePre (map : NodeMap) (pk : Option String) (key : String) : Prop :=
  match pk with
  | none => MutuallyConsistent map
  | some p =>
      ChildLinked map (some (p, key)) ∧ ParentLinked map ∧
        ∃ P, alGet map p = some P ∧ key ∈ P.children

mutual

/-- Well-formed payload for the consistency claim: every dependencies
entry holds a non-null child object whose `name` field, when truthy,
agrees with its key in the dependencies object, and keys are nonempty. -/
def wfLinkedNode (node : RawNode) (provided : String) : Bool :=
  match node with
  | RawNode.mk nm _ _ deps =>
      (effName nm provided = provided) && (provided ≠ "") &&
        (match deps with
         | none => true
         | some ds => wfLinkedDeps ds)

def wfLinkedDeps (ds : RawDeps) : Bool :=
  match ds with
  | RawDeps.nil => true
  | RawDeps.consNull _ _ => false
  | RawDeps.consNode depName child rest =>
      wfLinkedNode child depName && wfLinkedDeps rest

end

theorem wfLinkedNode_mk (nm vr : Option String) (dv : Option Bool)
    (deps : Option RawDeps) (provided : String) :
    wfLinkedNode (RawNode.mk nm vr dv deps) provided =
      ((effName nm provided = provided) && (provided ≠ "") &&
        (match deps with
         | none => true
         | some ds => wfLinkedDeps ds)) := by
  rw [wfLinkedNode.eq_def]

theorem wfLinkedDeps_consNode (depName : String) (child : RawNode)
    (rest : RawDeps) :
    wfLinkedDeps (RawDeps.consNode depName child rest) =
      (wfLinkedNode child depName && wfLinkedDeps rest) := by
  rw [wfLinkedDeps.eq_def]

theorem wfLinkedDeps_consNull (depName : String) (rest : RawDeps) :
    wfLinkedDeps (RawDeps.consNull depName rest) = false := by
  rw [wfLinkedDeps.eq_def]

/-- A well-formed node's effective key is its dependencies-object key. -/
theorem rawKeyOf_of_wfLinked {node : RawNode} {provided : String}
    (h : wfLinkedNode node provided = true) :
    rawKeyOf node provided = provided ++ "@" ++ effVersion node.versionField
      ∧ provided ≠ "" := by
  match node with
  | RawNode.mk nm vr dv deps =>
      rw [wfLinkedNode_mk, Bool.and_eq_true, Bool.and_eq_true] at h
      refine ⟨?_, by simpa using h.1.2⟩
      unfold rawKeyOf RawNode.nameField RawNode.versionField
      rw [show effName nm provided = provided from by simpa using h.1.1]

/-- The first-visit branch of `upsertNode`. -/
theorem upsertNode_create (map : NodeMap) (key nodeName version : String)
    (depth : Nat) (pk : Option String) (dv : Option Bool)
    (hget : alGet map key = none) :
    upsertNode map key nodeName version depth pk dv =
      alSet map key
        ⟨nodeName, version, key, depth,
          (match pk with | some p => [p] | none => []), [], dv⟩ := by
  unfold upsertNode
  rw [hget]

/-- The revisit branch of `upsertNode`. -/
theorem upsertNode_revisit (map : NodeMap) (key nodeName version : String)
    (depth : Nat) (pk : Option String) (dv : Option Bool) (existing : NodeInfo)
    (hget : alGet map key = some existing) :
    upsertNode map key nodeName version depth pk dv =
      alSet map key
        { existing with
            depth := min existing.depth depth
            parents :=
              (match pk with
               | some p => addUnique existing.parents p
               | none => existing.parents)
            dev :=
              (match existing.dev with
               | none => dv
               | some b => some b) } := by
  unfold upsertNode
  rw [hget]

/-- Workhorse for both `upsertNode` branches: setting `key` to a value `v`
whose parent set mirrors the pending edge preserves mutual consistency. -/
theorem linked_alSet_node (map : NodeMap) (key : String) (v : NodeInfo)
    (pending : Option (String × String))
    (hcl : ChildLinked map pending) (hpl : ParentLinked map)
    (hpendKey : ∀ a c, pending = some (a, c) → c = key ∧ a ∈ v.parents)
    (hpendPre : ∀ a c, pending = some (a, c) →
      ∃ P, alGet map a = some P ∧ c ∈ P.children)
    (hvc : ∀ c ∈ v.children, ∃ old, alGet map key = some old ∧ c ∈ old.children)
    (hvp : ∀ q ∈ v.parents,
      (∃ old, alGet map key = some old ∧ q ∈ old.parents) ∨ pending = some (q, key))
    (holdp : ∀ old, alGet map key = some old → ∀ x ∈ old.parents, x ∈ v.parents)
    (holdc : ∀ old, alGet map key = some old → ∀ x ∈ old.children, x ∈ v.children) :
    MutuallyConsistent (alSet map key v) := by
  constructor
  · intro a A hA c hc
    right
    have main : ∀ (A₀ : NodeInfo), alGet map a = some A₀ → c ∈ A₀.children →
        ∃ B, alGet (alSet map key v) c = some B ∧ a ∈ B.parents := by
      intro A₀ hA₀ hc₀
      rcases hcl a A₀ hA₀ c hc₀ with hp | ⟨B, hB, hmem⟩
      · obtain ⟨hck, hav⟩ := hpendKey _ _ hp
        subst hck
        exact ⟨v, alGet_alSet_self _ _ _, hav⟩
      · by_cases hck : key = c
        · subst hck
          obtain ⟨old, hold⟩ : ∃ old, alGet map key = some old := ⟨B, hB⟩
          rw [hold] at hB
          cases hB
          exact ⟨v, alGet_alSet_self _ _ _, holdp _ hold _ hmem⟩
        · rw [← alGet_alSet_ne map key c v hck] at hB
          exact ⟨B, hB, hmem⟩
    by_cases hak : key = a
    · subst hak
      rw [alGet_alSet_self] at hA
      cases hA
      obtain ⟨old, hold, hcold⟩ := hvc c hc
      exact main old hold hcold
    · rw [alGet_alSet_ne _ _ _ _ hak] at hA
      exact main A hA hc
  · intro b B hB q hq
    have main : ∀ (P : NodeInfo), alGet map q = some P → b ∈ P.children →
        ∃ A, alGet (alSet map key v) q = some A ∧ b ∈ A.children := by
      intro P hP hbP
      by_cases hqk : key = q
      · subst hqk
        exact ⟨v, alGet_alSet_self _ _ _, holdc _ hP _ hbP⟩
      · rw [← alGet_alSet_ne map key q v hqk] at hP
        exact ⟨P, hP, hbP⟩
    by_cases hbk : key = b
    · subst hbk
      rw [alGet_alSet_self] at hB
      cases hB
      rcases hvp q hq with ⟨old, hold, hqold⟩ | hp
      · obtain ⟨A, hA, hbA⟩ := hpl key old hold q hqold
        exact main A hA hbA
      · obtain ⟨P, hP, hkeyP⟩ := hpendPre _ _ hp
        exact main P hP hkeyP
    · rw [alGet_alSet_ne _ _ _ _ hbk] at hB
      obtain ⟨A, hA, hbA⟩ := hpl b B hB q hq
      exact main A hA hbA

/-- One create-or-revisit step preserves mutual consistency: the pending
edge (if any) becomes mirrored by the created/updated node's parent set. -/
theorem linked_upsertNode (map : NodeMap) (key nodeName version : String)
    (depth : Nat) (pk : Option String) (dv : Option Bool)
    (hpre : TraversePre map pk key) :
    MutuallyConsistent (upsertNode map key nodeName version depth pk dv) ∧
      ∃ e, alGet (upsertNode map key nodeName version depth pk dv) key = some e := by
  cases pk with
  | none =>
      obtain ⟨hcl, hpl⟩ := hpre
      cases hget : alGet map key with
      | none =>
          rw [upsertNode_create _ _ _ _ _ _ _ hget]
          refine ⟨linked_alSet_node map key _ none hcl hpl ?_ ?_ ?_ ?_ ?_ ?_,
            _, alGet_alSet_self _ _ _⟩
          · intro a c h
            cases h
          · intro a c h
            cases h
          · intro c hc
            cases hc
          · intro q hq
            cases hq
          · intro old h
            rw [hget] at h
            cases h
          · intro old h
            rw [hget] at h
            cases h
      | some existing =>
          rw [upsertNode_revisit _ _ _ _ _ _ _ existing hget]
          refine ⟨linked_alSet_node map key _ none hcl hpl ?_ ?_ ?_ ?_ ?_ ?_,
            _, alGet_alSet_self _ _ _⟩
          · intro a c h
            cases h
          · intro a c h
            cases h
          · intro c hc
            exact ⟨existing, hget, hc⟩
          · intro q hq
            exact Or.inl ⟨existing, hget, hq⟩
          · intro old h
            rw [hget] at h
            cases h
            exact fun x hx => hx
          · intro old h
            rw [hget] at h
            cases h
            exact fun x hx => hx
  | some p =>
      obtain ⟨hcl, hpl, hPpre⟩ := hpre
      cases hget : alGet map key with
      | none =>
          rw [upsertNode_create _ _ _ _ _ _ _ hget]
          refine ⟨linked_alSet_node map key _ (some (p, key)) hcl hpl ?_ ?_ ?_ ?_ ?_ ?_,
            _, alGet_alSet_self _ _ _⟩
          · intro a c h
            cases h
            exact ⟨rfl, List.mem_singleton.mpr rfl⟩
          · intro a c h
            cases h
            exact hPpre
          · intro c hc
            cases hc
          · intro q hq
            rw [List.mem_singleton] at hq
            subst hq
            exact Or.inr rfl
          · intro old h
            rw [hget] at h
            cases h
          · intro old h
            rw [hget] at h
            cases h
      | some existing =>
          rw [upsertNode_revisit _ _ _ _ _ _ _ existing hget]
          refine ⟨linked_alSet_node map key _ (some (p, key)) hcl hpl ?_ ?_ ?_ ?_ ?_ ?_,
            _, alGet_alSet_self _ _ _⟩
          · intro a c h
            cases h
            exact ⟨rfl, mem_addUnique.mpr (Or.inr rfl)⟩
          · intro a c h
            cases h
            exact hPpre
          · intro c hc
            exact ⟨existing, hget, hc⟩
          · intro q hq
            rcases mem_addUnique.mp hq with hq' | rfl
            · exact Or.inl ⟨existing, hget, hq'⟩
            · exact Or.inr rfl
          · intro old h
            rw [hget] at h
            cases h
            exact fun x hx => mem_addUnique.mpr (Or.inl hx)
          · intro old h
            rw [hget] at h
            cases h
            exact fun x hx => hx


/-- Recording a child edge under a present key keeps the map consistent
except for exactly that new (possibly already mirrored) edge. -/
theorem linked_addChildEdge (map : NodeMap) (key childKey : String)
    (cur : NodeInfo) (hget : alGet map key = some cur)
    (hl : MutuallyConsistent map) :
    ChildLinked (addChildEdge map key childKey) (some (key, childKey)) ∧
      ParentLinked (addChildEdge map key childKey) ∧
      ∃ P, alGet (addChildEdge map key childKey) key = some P ∧
        childKey ∈ P.children := by
  obtain ⟨hcl, hpl⟩ := hl
  have heq : addChildEdge map key childKey
      = alSet map key { cur with children := addUnique cur.children childKey } := by
    unfold addChildEdge
    rw [hget]
  rw [heq]
  refine ⟨?_, ?_, _, alGet_alSet_self _ _ _, mem_addUnique.mpr (Or.inr rfl)⟩
  · intro a A hA c hc
    have main : a ∈ map.map Prod.fst → True := fun _ => trivial
    by_cases hak : key = a
    · subst hak
      rw [alGet_alSet_self] at hA
      cases hA
      rcases mem_addUnique.mp hc with hc' | rfl
      · rcases hcl key cur hget c hc' with h | ⟨B, hB, hmem⟩
        · cases h
        · by_cases hck : key = c
          · subst hck
            rw [hget] at hB
            cases hB
            exact Or.inr ⟨_, alGet_alSet_self _ _ _, hmem⟩
          · rw [← alGet_alSet_ne map key c _ hck] at hB
            exact Or.inr ⟨B, hB, hmem⟩
      · exact Or.inl rfl
    · rw [alGet_alSet_ne _ _ _ _ hak] at hA
      rcases hcl a A hA c hc with h | ⟨B, hB, hmem⟩
      · cases h
      · by_cases hck : key = c
        · subst hck
          rw [hget] at hB
          cases hB
          exact Or.inr ⟨_, alGet_alSet_self _ _ _, hmem⟩
        · rw [← alGet_alSet_ne map key c _ hck] at hB
          exact Or.inr ⟨B, hB, hmem⟩
  · intro b B hB q hq
    have main : ∀ (A : NodeInfo), alGet map q = some A → b ∈ A.children →
        ∃ A', alGet (alSet map key
            { cur with children := addUnique cur.children childKey }) q = some A' ∧
          b ∈ A'.children := by
      intro A hA hbA
      by_cases hqk : key = q
      · subst hqk
        rw [hget] at hA
        cases hA
        exact ⟨_, alGet_alSet_self _ _ _, mem_addUnique.mpr (Or.inl hbA)⟩
      · rw [← alGet_alSet_ne map key q _ hqk] at hA
        exact ⟨A, hA, hbA⟩
    by_cases hbk : key = b
    · subst hbk
      rw [alGet_alSet_self] at hB
      cases hB
      obtain ⟨A, hA, hbA⟩ := hpl key cur hget q hq
      exact main A hA hbA
    · rw [alGet_alSet_ne _ _ _ _ hbk] at hB
      obtain ⟨A, hA, hbA⟩ := hpl b B hB q hq
      exact main A hA hbA

mutual

/-- Traversal preserves mutual consistency: the pending child edge of the
incoming call is mirrored by the visited node, and every edge recorded in
the dependencies loop is mirrored by the recursive call it precedes. -/
theorem linked_traverseNode :
    ∀ (node : RawNode) (depth : Nat) (pk : Option String) (provided : String)
      (map : NodeMap), wfLinkedNode node provided = true →
      TraversePre map pk (rawKeyOf node provided) →
      MutuallyConsistent (traverseNode node depth pk provided map)
  | RawNode.mk nm vr dv deps, depth, pk, provided, map, hwf, hpre => by
      rw [wfLinkedNode_mk, Bool.and_eq_true, Bool.and_eq_true] at hwf
      have hnm : effName nm provided = provided := by simpa using hwf.1.1
      have hprov : provided ≠ "" := by simpa using hwf.1.2
      have hname : effName nm provided ≠ "" := by
        rw [hnm]
        exact hprov
      have hkey : rawKeyOf (RawNode.mk nm vr dv deps) provided
          = effName nm provided ++ "@" ++ effVersion vr := rfl
      rw [hkey] at hpre
      rw [traverseNode_mk, if_neg hname]
      obtain ⟨hcons1, e1, he1⟩ :=
        linked_upsertNode map (effName nm provided ++ "@" ++ effVersion vr)
          (effName nm provided) (effVersion vr) depth pk dv hpre
      cases deps with
      | none => exact hcons1
      | some ds =>
          exact linked_traverseDeps ds depth
            (effName nm provided ++ "@" ++ effVersion vr) _ hwf.2 hcons1 ⟨e1, he1⟩

theorem linked_traverseDeps :
    ∀ (ds : RawDeps) (depth : Nat) (key : String) (map : NodeMap),
      wfLinkedDeps ds = true → MutuallyConsistent map →
      (∃ e, alGet map key = some e) →
      MutuallyConsistent (traverseDeps ds depth key map)
  | RawDeps.nil, _, _, _, _, hcons, _ => hcons
  | RawDeps.consNull depName rest, depth, key, map, hwf, _, _ => by
      rw [wfLinkedDeps_consNull] at hwf
      cases hwf
  | RawDeps.consNode depName child rest, depth, key, map, hwf, hcons, hpres => by
      rw [wfLinkedDeps_consNode, Bool.and_eq_true] at hwf
      obtain ⟨cur, hcur⟩ := hpres
      rw [traverseDeps_consNode]
      obtain ⟨hcl1, hpl1, P1, hP1, hck1⟩ :=
        linked_addChildEdge map key (depName ++ "@" ++ childVersionOf (some child))
          cur hcur hcons
      have hck : childVersionOf (some child) = effVersion child.versionField := rfl
      have hpre2 : TraversePre
          (addChildEdge map key (depName ++ "@" ++ childVersionOf (some child)))
          (some key) (rawKeyOf child depName) := by
        rw [(rawKeyOf_of_wfLinked hwf.1).1, ← hck]
        exact ⟨hcl1, hpl1, P1, hP1, hck1⟩
      have hcons2 := linked_traverseNode child (depth + 1) (some key) depName _
        hwf.1 hpre2
      obtain ⟨e2, he2, _⟩ :=
        traverseNode_mono child (depth + 1) (some key) depName _ key P1 hP1
      exact linked_traverseDeps rest depth key _ hwf.2 hcons2 ⟨e2, he2⟩

end

/-- Top-level traversal of a well-formed payload preserves consistency. -/
theorem linked_traverseTop :
    ∀ (ds : RawDeps) (map : NodeMap), wfLinkedDeps ds = true →
      MutuallyConsistent map → MutuallyConsistent (traverseTop ds map)
  | RawDeps.nil, map, _, hcons => by
      rw [traverseTop]
      exact hcons
  | RawDeps.consNull depName rest, map, hwf, _ => by
      rw [wfLinkedDeps_consNull] at hwf
      cases hwf
  | RawDeps.consNode depName child rest, map, hwf, hcons => by
      rw [wfLinkedDeps_consNode, Bool.and_eq_true] at hwf
      have : traverseTop (RawDeps.consNode depName child rest) map
          = traverseTop rest (traverseNode child 1 none depName map) := by
        rw [traverseTop]
      rw [this]
      refine linked_traverseTop rest _ hwf.2 ?_
      exact linked_traverseNode child 1 none depName map hwf.1 hcons

/-- Every value produced by the flat-manifest fallback has empty parent
and child sets (given the same holds of the starting map). -/
theorem fallbackEntries_empty_edges :
    ∀ (l : List (String × String)) (dev : Bool) (map : NodeMap),
      (∀ k e, alGet map k = some e → e.parents = [] ∧ e.children = []) →
      ∀ k e, alGet (fallbackEntries l dev map) k = some e →
        e.parents = [] ∧ e.children = []
  | [], _, map, h, k, e, he => h k e he
  | (n, v) :: rest, dev, map, h, k, e, he => by
      rw [show fallbackEntries ((n, v) :: rest) dev map
          = fallbackEntries rest dev
              (alSet map (n ++ "@" ++ v) ⟨n, v, n ++ "@" ++ v, 1, [], [], some dev⟩)
        from rfl] at he
      refine fallbackEntries_empty_edges rest dev _ ?_ k e he
      intro k' e' he'
      by_cases hk : (n ++ "@" ++ v) = k'
      · subst hk
        rw [alGet_alSet_self] at he'
        cases he'
        exact ⟨rfl, rfl⟩
      · rw [alGet_alSet_ne _ _ _ _ hk] at he'
        exact h k' e' he'

/-- A map whose every value has empty parent and child sets is trivially
mutually consistent. -/
theorem consistent_of_empty_edges (map : NodeMap)
    (h : ∀ k e, alGet map k = some e → e.parents = [] ∧ e.children = []) :
    MutuallyConsistent map := by
  constructor
  · intro a A hA c hc
    rw [(h a A hA).2] at hc
    cases hc
  · intro b B hB q hq
    rw [(h b B hB).1] at hq
    cases hq

/-- Concrete payload for the C3 counterexample: top-level `a@1` has a null
dependencies entry `b` (recorded as child `b@unknown` with no node ever
created) and an aliased entry `c` whose node names itself `other`
(recorded as child `c@1`, while the created node is keyed `other@1`). -/
def c3BadTree : RawDeps :=
  RawDeps.consNode "a"
    (RawNode.mk none (some "1") none
      (some (RawDeps.consNull "b"
        (RawDeps.consNode "c"
          (RawNode.mk (some "other") (some "1") none none)
          RawDeps.nil))))
    RawDeps.nil

def c3BadMap : NodeMap :=
  buildNodeMap (some (LsData.mk (some c3BadTree))) ⟨none, none⟩

/-- Claim C3, as stated, is false: in `c3BadMap` the node `a@1` lists
`b@unknown` and `c@1` as children, but no node keyed `b@unknown` or `c@1`
exists (the aliased child was keyed `other@1`), and `other@1` lists `a@1`
as parent while `a@1` does not list `other@1` as child. -/
theorem buildNodeMap_consistency_counterexample :
    (alGet c3BadMap "a@1").map NodeInfo.children = some ["b@unknown", "c@1"] ∧
    alGet c3BadMap "b@unknown" = none ∧
    alGet c3BadMap "c@1" = none ∧
    (alGet c3BadMap "other@1").map NodeInfo.parents = some ["a@1"] ∧
    (alGet c3BadMap "a@1").map (fun A => decide ("other@1" ∈ A.children))
      = some false ∧
    ¬ MutuallyConsistent c3BadMap := by
  refine ⟨by decide, by decide, by decide, by decide, by decide, ?_⟩
  rintro ⟨hcl, _⟩
  rcases hcl "a@1" ⟨"a", "1", "a@1", 1, [], ["b@unknown", "c@1"], none⟩
      (by decide) "b@unknown" (by decide) with h | ⟨B, hB, _⟩
  · cases h
  · rw [show alGet c3BadMap "b@unknown" = none from by decide] at hB
    cases hB

/-- Claim C3 (amended): for every payload in which each dependencies entry
holds a non-null child object whose `name` field (when truthy) agrees with
its entry key, and for every flat-manifest fallback, the node map built by
`buildNodeMap` satisfies both directions of the mutual-consistency
invariant: a recorded child edge is mirrored by the child node's parent
set, and a recorded parent edge is mirrored by the parent node's child
set. -/
theorem buildNodeMap_consistency_amended :
    (∀ (ds : RawDeps) (pkg : Pkg), wfLinkedDeps ds = true →
      MutuallyConsistent (buildNodeMap (some (LsData.mk (some ds))) pkg)) ∧
    (∀ pkg : Pkg, MutuallyConsistent (buildNodeMap none pkg)) := by
  constructor
  · intro ds pkg hwf
    have : buildNodeMap (some (LsData.mk (some ds))) pkg = traverseTop ds [] := by
      rw [buildNodeMap]
    rw [this]
    refine linked_traverseTop ds [] hwf ?_
    constructor
    · intro a A hA
      cases hA
    · intro b B hB
      cases hB
  · intro pkg
    refine consistent_of_empty_edges _ ?_
    refine fallbackEntries_empty_edges _ _ _ ?_
    refine fallbackEntries_empty_edges _ _ _ ?_
    intro k e he
    cases he

/-- A well-formed payload for the C3 witness (same diamond as the C2
witness but claim-local): `a → d → c` and `b → c`. -/
def c3GoodTree : RawDeps :=
  RawDeps.consNode "a"
    (RawNode.mk none (some "1") none
      (some (RawDeps.consNode "d"
        (RawNode.mk none (some "1") none
          (some (RawDeps.consNode "c"
            (RawNode.mk none (some "1") none none) RawDeps.nil)))
        RawDeps.nil)))
    (RawDeps.consNode "b"
      (RawNode.mk none (some "1") none
        (some (RawDeps.consNode "c"
          (RawNode.mk none (some "1") none none) RawDeps.nil)))
      RawDeps.nil)

/-- Witness for `buildNodeMap_consistency_amended`: the tree branch at a
concrete well-formed diamond payload and the fallback branch at a concrete
manifest. -/
theorem buildNodeMap_consistency_amended_witness :
    MutuallyConsistent
        (buildNodeMap (some (LsData.mk (some c3GoodTree))) ⟨none, none⟩) ∧
    MutuallyConsistent
        (buildNodeMap none ⟨some [("a", "1")], some [("b", "2")]⟩) :=
  ⟨buildNodeMap_consistency_amended.1 c3GoodTree ⟨none, none⟩ (by decide),
   buildNodeMap_consistency_amended.2 ⟨some [("a", "1")], some [("b", "2")]⟩⟩

/-! ## Vulnerability Indexer (`parseVulnerabilities`, src/aggregator.ts 395–478) -/

inductive Severity where
  | low
  | moderate
  | high
  | critical
deriving Repr, DecidableEq

/-- `s || dflt` for a string-or-undefined value (JS `||` with `""` falsy). -/
def jsOrString (o : Option String) (dflt : String) : String :=
  match o with
  | some s => if s = "" then dflt else s
  | none => dflt

structure SevCounts where
  low : Nat
  moderate : Nat
  high : Nat
  critical : Nat
deriving Repr, DecidableEq

def SevCounts.get (c : SevCounts) : Severity → Nat
  | Severity.low => c.low
  | Severity.moderate => c.moderate
  | Severity.high => c.high
  | Severity.critical => c.critical

/-- `entry.counts[severity] = (entry.counts[severity] || 0) + n` (the code
uses `+ 1` for a finding and `+ 0` for a nested sub-advisory). -/
def SevCounts.addN (c : SevCounts) (s : Severity) (n : Nat) : SevCounts :=
  match s with
  | Severity.low => { c with low := c.low + n }
  | Severity.moderate => { c with moderate := c.moderate + n }
  | Severity.high => { c with high := c.high + n }
  | Severity.critical => { c with critical := c.critical + n }

theorem SevCounts.addN_zero (c : SevCounts) (s : Severity) : c.addN s 0 = c := by
  cases s <;> rfl

theorem SevCounts.get_addN (c : SevCounts) (s t : Severity) (n : Nat) :
    (c.addN s n).get t = c.get t + (if s = t then n else 0) := by
  cases s <;> cases t <;> simp [SevCounts.addN, SevCounts.get]

/-- One vulnerability item pushed into a summary (claims do not constrain
these fields; they are carried for fidelity). -/
structure VulnItem where
  title : Option String
  severity : Severity
  url : Option String
  vulnerableRange : Option String
  fixAvailable : Option Bool
  paths : List String
deriving Repr, DecidableEq

structure VulnerabilitySummary where
  counts : SevCounts
  items : List VulnItem
  highestSeverity : Option Severity
deriving Repr, DecidableEq

/-- `emptyVulnSummary` (src/aggregator.ts 464–470); `highestSeverity` of
`'none'` is embedded as `Option.none`. -/
def emptyVulnSummary : VulnerabilitySummary := ⟨⟨0, 0, 0, 0⟩, [], none⟩

/-- ASCII lowercasing, embedding the JS `String.prototype.toLowerCase`
call for the ASCII severity strings that occur in audit payloads. -/
def lowerChar (c : Char) : Char :=
  if c.toNat ≥ 65 ∧ c.toNat ≤ 90 then Char.ofNat (c.toNat + 32) else c

def asciiLower (s : String) : String :=
  String.mk (s.data.map lowerChar)

/-- `normalizeSeverity` (src/aggregator.ts 456–462): a non-string (`none`)
or unrecognized severity defaults to `low`. -/
def normalizeSeverity (sev : Option String) : Severity :=
  match sev with
  | none => Severity.low
  | some s =>
      if asciiLower s = "moderate" then Severity.moderate
      else if asciiLower s = "high" then Severity.high
      else if asciiLower s = "critical" then Severity.critical
      else Severity.low

/-- `computeHighestSeverity` (src/aggregator.ts 472–478); `'none'` is
embedded as `Option.none`. -/
def computeHighestSeverity (counts : SevCounts) : Option Severity :=
  if counts.critical > 0 then some Severity.critical
  else if counts.high > 0 then some Severity.high
  else if counts.moderate > 0 then some Severity.moderate
  else if counts.low > 0 then some Severity.low
  else none

/-- An element of a v7+ finding group's `via` array: either a string
reference (skipped by the `typeof v === 'object'` filter) or a nested
sub-advisory object. -/
inductive ViaEntry where
  | ref (s : String)
  | adv (title : Option String) (severity : Option String) (url : Option String)
      (range : Option String) (name : Option String)
deriving Repr, DecidableEq

/-- A v7+ audit finding group (one value of `auditData.vulnerabilities`). -/
structure VulnGroup where
  name : Option String
  severity : Option String
  via : List ViaEntry
  title : Option String
  fixAvailable : Option Bool
  nodes : List String
deriving Repr, DecidableEq

/-- A legacy advisory (one value of `auditData.advisories`); `findings` is
the list of per-finding path lists. -/
structure Advisory where
  module_name : Option String
  moduleField : Option String
  severity : Option String
  title : Option String
  url : Option String
  vulnerable_versions : Option String
  fix_available : Option Bool
  findings : List (List String)
deriving Repr, DecidableEq

/-- `adv.module_name || adv.module || 'unknown'`. -/
def advName (a : Advisory) : String :=
  jsOrString a.module_name (jsOrString a.moduleField "unknown")

/-- The raw audit payload: either historical shape may be present. -/
structure AuditData where
  vulnerabilities : Option (List (String × VulnGroup))
  advisories : Option (List (String × Advisory))
deriving Repr, DecidableEq

abbrev VulnMap : Type := List (String × VulnerabilitySummary)

/-- The `viaList.filter(typeof object).forEach` body: push one item per
nested sub-advisory and add `0` to its severity count (`// already counted
above`).  The JS `normalizeSeverity(vul.severity) || severity` fallback is
dead code — `normalizeSeverity` always returns a truthy string — so the
sub-advisory severity is just `normalizeSeverity vul.severity`. -/
def applyVia (item : VulnGroup) (name : String) (e : VulnerabilitySummary)
    (v : ViaEntry) : VulnerabilitySummary :=
  match v with
  | ViaEntry.ref _ => e
  | ViaEntry.adv vtitle vsev vurl vrange vname =>
      let sev := normalizeSeverity vsev
      { e with
          items := e.items ++
            [⟨some (jsOrString vtitle (jsOrString item.title (jsOrString vname name))),
              sev, vurl, vrange, item.fixAvailable, item.nodes⟩]
          counts := e.counts.addN sev 0 }

/-- Processing of one v7+ finding group (src/aggregator.ts 407–428):
ensure the entry, count the group once under its normalized severity, push
one item per object-typed `via` element (adding zero to the counts), and
recompute the highest severity. -/
def processGroup (m : VulnMap) (item : VulnGroup) : VulnMap :=
  let name := jsOrString item.name "unknown"
  let severity := normalizeSeverity item.severity
  let entry := (alGet m name).getD emptyVulnSummary
  let entry1 := { entry with counts := entry.counts.addN severity 1 }
  let entry2 := item.via.foldl (applyVia item name) entry1
  let entry3 := { entry2 with highestSeverity := computeHighestSeverity entry2.counts }
  alSet m name entry3

/-- Processing of one legacy advisory (src/aggregator.ts 431–446): ensure
the entry, push one item, count the advisory once under its normalized
severity, and recompute the highest severity. -/
def processAdvisory (m : VulnMap) (adv : Advisory) : VulnMap :=
  let name := advName adv
  let severity := normalizeSeverity adv.severity
  let entry := (alGet m name).getD emptyVulnSummary
  let item : VulnItem :=
    ⟨adv.title, severity, adv.url, adv.vulnerable_versions,
      adv.fix_available, adv.findings.flatten⟩
  let entry1 :=
    { entry with
        items := entry.items ++ [item]
        counts := entry.counts.addN severity 1 }
  let entry2 := { entry1 with highestSeverity := computeHighestSeverity entry1.counts }
  alSet m name entry2

/-- The `if (auditData.vulnerabilities)` loop. -/
def applyGroups : Option (List (String × VulnGroup)) → VulnMap → VulnMap
  | none, m => m
  | some vs, m => vs.foldl (fun m p => processGroup m p.2) m

/-- The `if (auditData.advisories)` loop. -/
def applyAdvisories : Option (List (String × Advisory)) → VulnMap → VulnMap
  | none, m => m
  | some advs, m => advs.foldl (fun m p => processAdvisory m p.2) m

/-- The final `map.forEach` pass recomputing every highest severity. -/
def finalizeHighest : VulnMap → VulnMap
  | [] => []
  | (k, e) :: rest =>
      (k, { e with highestSeverity := computeHighestSeverity e.counts }) ::
        finalizeHighest rest

/-- `parseVulnerabilities` (src/aggregator.ts 395–454): normalize both
historical audit shapes into one per-package-name summary map, then
recompute every entry's highest severity in a final pass. -/
def parseVulnerabilities (auditData : Option AuditData) : VulnMap :=
  match auditData with
  | none => []
  | some d => finalizeHighest (applyAdvisories d.advisories (applyGroups d.vulnerabilities []))

/-- Findings for `name` at normalized tier `t` in the v7+ groups. -/
def groupCount (vs : List (String × VulnGroup)) (name : String) (t : Severity) :
    Nat :=
  (vs.filter (fun p =>
    jsOrString p.2.name "unknown" = name && normalizeSeverity p.2.severity = t)).length

/-- Findings for `name` at normalized tier `t` in the legacy advisories. -/
def advCount (advs : List (String × Advisory)) (name : String) (t : Severity) :
    Nat :=
  (advs.filter (fun p =>
    advName p.2 = name && normalizeSeverity p.2.severity = t)).length

/-- All findings for `name` at tier `t` in a raw audit payload. -/
def findingCount (d : AuditData) (name : String) (t : Severity) : Nat :=
  (match d.vulnerabilities with
   | none => 0
   | some vs => groupCount vs name t) +
  (match d.advisories with
   | none => 0
   | some advs => advCount advs name t)

/-- Count recorded for `name` at tier `t` (0 when `name` is absent). -/
def cntAt (m : VulnMap) (name : String) (t : Severity) : Nat :=
  ((alGet m name).getD emptyVulnSummary).counts.get t

/-- The `via` loop touches items only: the counts are unchanged (each
sub-advisory adds zero, `// already counted above`). -/
theorem applyVia_foldl_counts (item : VulnGroup) (name : String) :
    ∀ (l : List ViaEntry) (e : VulnerabilitySummary),
      (l.foldl (applyVia item name) e).counts = e.counts
  | [], e => rfl
  | v :: rest, e => by
      rw [List.foldl_cons, applyVia_foldl_counts item name rest]
      cases v with
      | ref s => rfl
      | adv vtitle vsev vurl vrange vname =>
          simp [applyVia, SevCounts.addN_zero]

theorem processGroup_cnt (m : VulnMap) (item : VulnGroup) (name : String)
    (t : Severity) :
    cntAt (processGroup m item) name t =
      cntAt m name t +
        (if jsOrString item.name "unknown" = name ∧
            normalizeSeverity item.severity = t then 1 else 0) := by
  unfold processGroup cntAt
  by_cases hname : jsOrString item.name "unknown" = name
  · rw [hname, alGet_alSet_self]
    simp only [Option.getD_some, applyVia_foldl_counts, SevCounts.get_addN]
    by_cases hsev : normalizeSeverity item.severity = t
    · simp [hsev]
    · simp [hsev]
  · rw [alGet_alSet_ne _ _ _ _ (fun h => hname h)]
    simp [hname]

theorem processGroup_alGet_ne (m : VulnMap) (item : VulnGroup) (name : String)
    (hname : jsOrString item.name "unknown" ≠ name) :
    alGet (processGroup m item) name = alGet m name := by
  unfold processGroup
  exact alGet_alSet_ne _ _ _ _ hname

theorem processAdvisory_cnt (m : VulnMap) (adv : Advisory) (name : String)
    (t : Severity) :
    cntAt (processAdvisory m adv) name t =
      cntAt m name t +
        (if advName adv = name ∧ normalizeSeverity adv.severity = t
         then 1 else 0) := by
  unfold processAdvisory cntAt
  by_cases hname : advName adv = name
  · rw [hname, alGet_alSet_self]
    simp only [Option.getD_some, SevCounts.get_addN]
    by_cases hsev : normalizeSeverity adv.severity = t
    · simp [hsev]
    · simp [hsev]
  · rw [alGet_alSet_ne _ _ _ _ (fun h => hname h)]
    simp [hname]

theorem groupFold_cnt :
    ∀ (vs : List (String × VulnGroup)) (m : VulnMap) (name : String)
      (t : Severity),
      cntAt (vs.foldl (fun m p => processGroup m p.2) m) name t =
        cntAt m name t + groupCount vs name t
  | [], m, name, t => by simp [groupCount]
  | p :: rest, m, name, t => by
      rw [List.foldl_cons, groupFold_cnt rest _ name t, processGroup_cnt]
      unfold groupCount
      rw [List.filter_cons]
      by_cases h : jsOrString p.2.name "unknown" = name ∧
          normalizeSeverity p.2.severity = t
      · simp only [h, and_self, if_pos, decide_eq_true_eq]
        rw [if_pos (by simp [h.1, h.2])]
        simp [groupCount]
        try omega
      · rw [if_neg h, if_neg (by simpa using h)]
        simp [groupCount]
        try omega

theorem advFold_cnt :
    ∀ (advs : List (String × Advisory)) (m : VulnMap) (name : String)
      (t : Severity),
      cntAt (advs.foldl (fun m p => processAdvisory m p.2) m) name t =
        cntAt m name t + advCount advs name t
  | [], m, name, t => by simp [advCount]
  | p :: rest, m, name, t => by
      rw [List.foldl_cons, advFold_cnt rest _ name t, processAdvisory_cnt]
      unfold advCount
      rw [List.filter_cons]
      by_cases h : advName p.2 = name ∧ normalizeSeverity p.2.severity = t
      · rw [if_pos h]
        rw [if_pos (by simp [h.1, h.2])]
        simp [advCount]
        try omega
      · rw [if_neg h, if_neg (by simpa using h)]
        simp [advCount]
        try omega

/-- The final pass rewrites only `highestSeverity`. -/
theorem alGet_finalizeHighest :
    ∀ (m : VulnMap) (name : String),
      alGet (finalizeHighest m) name =
        (alGet m name).map
          (fun e => { e with highestSeverity := computeHighestSeverity e.counts })
  | [], name => rfl
  | (k, e) :: rest, name => by
      rw [finalizeHighest]
      by_cases hk : k = name
      · subst hk
        simp [alGet]
      · simp only [alGet, if_neg hk]
        exact alGet_finalizeHighest rest name

theorem cntAt_finalizeHighest (m : VulnMap) (name : String) (t : Severity) :
    cntAt (finalizeHighest m) name t = cntAt m name t := by
  unfold cntAt
  rw [alGet_finalizeHighest]
  cases alGet m name <;> rfl

/-- `specHighestSeverity`, modelled from the spec's words: the greatest
tier with a nonzero count under the fixed ordering
`critical > high > moderate > low`, else none. -/
def specHighestSeverity (c : SevCounts) : Option Severity :=
  [Severity.critical, Severity.high, Severity.moderate, Severity.low].find?
    (fun t => c.get t > 0)

theorem computeHighestSeverity_eq_spec (c : SevCounts) :
    computeHighestSeverity c = specHighestSeverity c := by
  unfold computeHighestSeverity specHighestSeverity
  by_cases h1 : c.critical > 0 <;> by_cases h2 : c.high > 0 <;>
    by_cases h3 : c.moderate > 0 <;> by_cases h4 : c.low > 0 <;>
    simp [List.find?, SevCounts.get, h1, h2, h3, h4]

theorem cntAt_nil (name : String) (t : Severity) : cntAt [] name t = 0 := by
  cases t <;> rfl

/-- Per-package counts after parsing equal the number of findings for that
package and tier: one per v7+ finding group, one per legacy advisory,
none per nested `via` detail. -/
theorem cntAt_parseVulnerabilities (d : AuditData) (name : String)
    (t : Severity) :
    cntAt (parseVulnerabilities (some d)) name t = findingCount d name t := by
  show cntAt
    (finalizeHighest (applyAdvisories d.advisories (applyGroups d.vulnerabilities [])))
    name t = findingCount d name t
  rw [cntAt_finalizeHighest]
  unfold findingCount
  cases d.advisories with
  | none =>
      show cntAt (applyGroups d.vulnerabilities []) name t = _
      cases d.vulnerabilities with
      | none => simpa using cntAt_nil name t
      | some vs =>
          show cntAt (vs.foldl (fun m p => processGroup m p.2) []) name t = _
          rw [groupFold_cnt, cntAt_nil]
          simp
  | some advs =>
      show cntAt (advs.foldl (fun m p => processAdvisory m p.2)
          (applyGroups d.vulnerabilities [])) name t = _
      rw [advFold_cnt]
      cases d.vulnerabilities with
      | none =>
          show cntAt [] name t + _ = _
          rw [cntAt_nil]
      | some vs =>
          show cntAt (vs.foldl (fun m p => processGroup m p.2) []) name t + _ = _
          rw [groupFold_cnt, cntAt_nil]
          simp

/-! ### Claim C5 -/

/-- Audit payload of the spec's scenario: one `critical` and two `low`
legacy findings for package `X`. -/
def c5Audit : AuditData :=
  ⟨none,
   some [("X", ⟨some "X", none, some "critical", some "first", none, none, none, []⟩),
         ("X", ⟨some "X", none, some "low", some "second", none, none, none, []⟩),
         ("X", ⟨some "X", none, some "low", some "third", none, none, none, []⟩)]⟩

/-- Claim C5 (confirmed): `parseVulnerabilities` accumulates exactly one
count per finding (v7+ group or legacy advisory) and none per nested
sub-advisory detail; an unknown or missing severity normalizes to `low`;
every produced summary's `highestSeverity` is `computeHighestSeverity` of
its counts, which equals the greatest tier with a nonzero count under the
fixed ordering `critical > high > moderate > low` (with `'none'`, embedded
as `Option.none`, when all counts are zero); and on the scenario payload
(one critical, two low findings for `X`) the counts are
`critical := 1, low := 2` with highest severity `critical`. -/
theorem parseVulnerabilities_spec :
    (∀ (d : AuditData) (name : String) (t : Severity),
      cntAt (parseVulnerabilities (some d)) name t = findingCount d name t) ∧
    (∀ (d : AuditData) (name : String) (e : VulnerabilitySummary),
      alGet (parseVulnerabilities (some d)) name = some e →
      e.highestSeverity = computeHighestSeverity e.counts) ∧
    (normalizeSeverity none = Severity.low ∧
      ∀ s : String, asciiLower s ≠ "moderate" → asciiLower s ≠ "high" →
        asciiLower s ≠ "critical" → normalizeSeverity (some s) = Severity.low) ∧
    (∀ c : SevCounts, computeHighestSeverity c = specHighestSeverity c) ∧
    (parseVulnerabilities none = [] ∧
      cntAt (parseVulnerabilities (some c5Audit)) "X" Severity.critical = 1 ∧
      cntAt (parseVulnerabilities (some c5Audit)) "X" Severity.low = 2 ∧
      cntAt (parseVulnerabilities (some c5Audit)) "X" Severity.moderate = 0 ∧
      cntAt (parseVulnerabilities (some c5Audit)) "X" Severity.high = 0 ∧
      (alGet (parseVulnerabilities (some c5Audit)) "X").map
          VulnerabilitySummary.highestSeverity
        = some (some Severity.critical)) := by
  refine ⟨cntAt_parseVulnerabilities, ?_, ⟨rfl, ?_⟩,
    computeHighestSeverity_eq_spec,
    by rfl, by rfl, by rfl, by rfl, by rfl, by rfl⟩
  · intro d name e he
    show e.highestSeverity = computeHighestSeverity e.counts
    have : alGet (finalizeHighest
        (applyAdvisories d.advisories (applyGroups d.vulnerabilities []))) name
        = some e := he
    rw [alGet_finalizeHighest] at this
    cases hbase : alGet
        (applyAdvisories d.advisories (applyGroups d.vulnerabilities [])) name with
    | none =>
        rw [hbase] at this
        cases this
    | some e0 =>
        rw [hbase] at this
        cases this
        rfl
  · intro s h1 h2 h3
    show (if asciiLower s = "moderate" then Severity.moderate
      else if asciiLower s = "high" then Severity.high
      else if asciiLower s = "critical" then Severity.critical
      else Severity.low) = Severity.low
    rw [if_neg h1, if_neg h2, if_neg h3]

/-- Witness for `parseVulnerabilities_spec`: the highest-severity equation
discharged at the scenario payload, and the default-to-low rule at a
concrete unknown severity string. -/
theorem parseVulnerabilities_spec_witness :
    ((parseVulnerabilities (some c5Audit)).map
        (fun p => (p.1, p.2.counts, p.2.highestSeverity))
      = [("X", ⟨2, 0, 0, 1⟩, some Severity.critical)]) ∧
    normalizeSeverity (some "serious") = Severity.low :=
  ⟨rfl,
   parseVulnerabilities_spec.2.2.1.2 "serious" (by decide) (by decide) (by decide)⟩

/-! ## Import Resolver (the import-graph runner, src/unnamed/part_004)

The filesystem (`fs.stat`) and the platform `path` module are external
collaborators, embedded as parameters; the platform built-in module list
(`builtinModules` from `module`) is likewise a parameter. -/

/-- `s.startsWith(pat)` embedded on character lists (the toolchain's builtin
byte-level `String.startsWith` is not kernel-reducible). -/
def startsWithChars : List Char → List Char → Bool
  | _, [] => true
  | [], _ :: _ => false
  | c :: cs, d :: ds => c = d && startsWithChars cs ds

def strStarts (s pat : String) : Bool := startsWithChars s.data pat.data

/-- `s.slice(n)` for ASCII strings: drop the first `n` characters. -/
def strDrop (s : String) (n : Nat) : String := String.mk (s.data.drop n)

/-- `s.split(sep)` for a one-character separator, on character lists:
JS semantics (`''.split(sep)` is `['']`, trailing separators yield a
trailing empty group). -/
def splitOnChar (sep : Char) : List Char → List (List Char)
  | [] => [[]]
  | c :: rest =>
      let r := splitOnChar sep rest
      if c = sep then [] :: r
      else
        match r with
        | [] => [[c]]
        | g :: gs => (c :: g) :: gs

def strSplitOn (sep : Char) (s : String) : List String :=
  (splitOnChar sep s.data).map String.mk

/-- `parts.join('/')`. -/
def strJoinSlash (parts : List String) : String :=
  String.mk (List.intercalate ['/'] (parts.map String.data))

/-- JS default `Array.prototype.sort` string order (lexicographic by code
unit), embedded on character lists. -/
def charListLe : List Char → List Char → Bool
  | [], _ => true
  | _ :: _, [] => false
  | c :: cs, d :: ds => if c = d then charListLe cs ds else decide (c < d)

def strLe (a b : String) : Bool := charListLe a.data b.data

def SOURCE_EXTENSIONS : List String := [".ts", ".tsx", ".js", ".jsx", ".mjs", ".cjs"]

inductive FsEntry where
  | file
  | directory
deriving Repr, DecidableEq

/-- The filesystem oracle: what `fs.stat` reports for a path (`none` for a
nonexistent path or a stat error, both of which the code treats alike). -/
def FS : Type := String → Option FsEntry

def isFile (fs : FS) (target : String) : Bool := fs target = some FsEntry.file

def isDir (fs : FS) (target : String) : Bool := fs target = some FsEntry.directory

/-- The platform `path` module as an external collaborator; `path.sep` is
a single character on every platform, so it is modelled as a `Char`. -/
structure PathModel where
  resolve : String → String → String
  relative : String → String → String
  join : String → String → String
  sep : Char

/-- `normalizePath` (part_004 160–163):
`path.relative(baseDir, filePath).split(path.sep).join('/')`. -/
def normalizePath (pm : PathModel) (baseDir filePath : String) : String :=
  strJoinSlash (strSplitOn pm.sep (pm.relative baseDir filePath))

/-- `resolveFile` (part_004 119–132): the exact path, then each recognized
extension appended, then `index.<ext>` inside the path when it is a
directory; first hit wins. -/
def resolveFile (fs : FS) (pm : PathModel) (basePath : String) : Option String :=
  if isFile fs basePath then some basePath
  else
    match (SOURCE_EXTENSIONS.map (fun ext => basePath ++ ext)).find?
        (fun c => isFile fs c) with
    | some candidate => some candidate
    | none =>
        if isDir fs basePath then
          (SOURCE_EXTENSIONS.map (fun ext => pm.join basePath ("index" ++ ext))).find?
            (fun c => isFile fs c)
        else none

/-- The fixed candidate order of the spec (§4.3 step 3). -/
def candidateList (fs : FS) (pm : PathModel) (basePath : String) : List String :=
  basePath :: (SOURCE_EXTENSIONS.map (fun ext => basePath ++ ext) ++
    (if isDir fs basePath then
      SOURCE_EXTENSIONS.map (fun ext => pm.join basePath ("index" ++ ext))
     else []))

/-- `resolveFileTarget` (part_004 110–117). -/
def resolveFileTarget (fs : FS) (pm : PathModel) (spec fileDir projectPath : String) :
    Option String :=
  let base :=
    if strStarts spec "/" then pm.resolve projectPath ("." ++ spec)
    else pm.resolve fileDir spec
  (resolveFile fs pm base).map (normalizePath pm projectPath)

/-- `BUILTIN_MODULES` (part_004 165–167): the raw `builtinModules` list
with every `node:`-prefixed entry also included unprefixed. -/
def deriveBuiltinSet (raw : List String) : List String :=
  raw.flatMap (fun m => if strStarts m "node:" then [m, strDrop m 5] else [m])

/-- `spec.startsWith('node:') ? spec.slice(5) : spec`. -/
def stripNodeNs (spec : String) : String :=
  if strStarts spec "node:" then strDrop spec 5 else spec

/-- `normalized.split('/')[0]`. -/
def rootSegOf (s : String) : String := (strSplitOn '/' s).headD ""

/-- `isBuiltinModule` (part_004 169–174). -/
def isBuiltinModule (B : List String) (spec : String) : Bool :=
  let normalized := stripNodeNs spec
  if spec ∈ B || normalized ∈ B then true
  else rootSegOf normalized ∈ B

/-- `toPackageName` (part_004 152–158): for `@scope/name/...` keep the
first two path segments, otherwise the first segment. -/
def toPackageName (spec : String) : String :=
  if strStarts spec "@" then
    strJoinSlash ((strSplitOn '/' spec).take 2)
  else rootSegOf spec

/-- `uniqSorted` (part_004 176–178): `Array.from(new Set(values)).sort()`. -/
def uniqSorted (values : List String) : List String :=
  (values.foldl addUnique []).mergeSort strLe

structure ResolvedImports where
  files : List String
  packages : List String
  unresolved : List String
deriving Repr, DecidableEq

/-- One iteration of the `for (const spec of specifiers)` loop of
`resolveImports` (part_004 90–102): skip built-ins, route relative or
absolute specifiers through `resolveFileTarget` into the file list or the
unresolved list, and record other specifiers as package usage. -/
def resolveStep (B : List String) (fs : FS) (pm : PathModel)
    (fileDir projectPath : String)
    (acc : List String × List String × List String) (spec : String) :
    List String × List String × List String :=
  if isBuiltinModule B spec then acc
  else if strStarts spec "." || strStarts spec "/" then
    match resolveFileTarget fs pm spec fileDir projectPath with
    | some target => (acc.1 ++ [target], acc.2.1, acc.2.2)
    | none => (acc.1, acc.2.1, acc.2.2 ++ [spec])
  else (acc.1, acc.2.1 ++ [toPackageName spec], acc.2.2)

/-- The whole loop, accumulating the three push-lists. -/
def resolveLoop (B : List String) (fs : FS) (pm : PathModel)
    (fileDir projectPath : String) (specifiers : List String) :
    List String × List String × List String :=
  specifiers.foldl (resolveStep B fs pm fileDir projectPath) ([], [], [])

/-- `resolveImports` (part_004 82–108). -/
def resolveImports (B : List String) (fs : FS) (pm : PathModel)
    (specifiers : List String) (fileDir projectPath : String) : ResolvedImports :=
  let lists := resolveLoop B fs pm fileDir projectPath specifiers
  ⟨uniqSorted lists.1, uniqSorted lists.2.1, uniqSorted lists.2.2⟩

theorem mem_foldl_addUnique (x : String) :
    ∀ (l acc : List String), x ∈ l.foldl addUnique acc ↔ x ∈ acc ∨ x ∈ l := by
  intro l
  induction l with
  | nil => intro acc; simp
  | cons a rest ih =>
      intro acc
      rw [List.foldl_cons, ih, mem_addUnique]
      simp [or_assoc]

theorem mem_uniqSorted (x : String) (l : List String) :
    x ∈ uniqSorted l ↔ x ∈ l := by
  unfold uniqSorted
  rw [List.mem_mergeSort, mem_foldl_addUnique]
  simp

/-- `resolveFile` returns exactly the first hit of the fixed candidate
order: the exact path, then each recognized extension appended, then
`index.<ext>` inside the path when it is a directory. -/
theorem resolveFile_eq_find (fs : FS) (pm : PathModel) (basePath : String) :
    resolveFile fs pm basePath =
      (candidateList fs pm basePath).find? (fun c => isFile fs c) := by
  unfold resolveFile candidateList
  by_cases h : isFile fs basePath
  · simp [List.find?_cons, h]
  · rw [List.find?_cons_of_neg _ (by simp [h]), List.find?_append]
    cases hfind : (SOURCE_EXTENSIONS.map (fun ext => basePath ++ ext)).find?
        (fun c => isFile fs c) with
    | some c => simp [h, hfind, Option.orElse]
    | none =>
        by_cases hd : isDir fs basePath
        · simp [h, hfind, hd, Option.orElse]
        · simp [h, hfind, hd, Option.orElse]

theorem resolveStep_decomp (B : List String) (fs : FS) (pm : PathModel)
    (fileDir projectPath : String)
    (acc : List String × List String × List String) (spec : String) :
    resolveStep B fs pm fileDir projectPath acc spec =
      (acc.1 ++ (resolveStep B fs pm fileDir projectPath ([], [], []) spec).1,
       acc.2.1 ++ (resolveStep B fs pm fileDir projectPath ([], [], []) spec).2.1,
       acc.2.2 ++ (resolveStep B fs pm fileDir projectPath ([], [], []) spec).2.2) := by
  unfold resolveStep
  by_cases hb : isBuiltinModule B spec
  · simp [hb]
  · by_cases hr : (strStarts spec "." || strStarts spec "/") = true
    · cases ht : resolveFileTarget fs pm spec fileDir projectPath with
      | some t => simp [hb, hr, ht]
      | none => simp [hb, hr, ht]
    · simp [hb, hr]

theorem foldl_resolveStep_decomp (B : List String) (fs : FS) (pm : PathModel)
    (fileDir projectPath : String) :
    ∀ (specifiers : List String) (acc : List String × List String × List String),
      specifiers.foldl (resolveStep B fs pm fileDir projectPath) acc =
        (acc.1 ++ (resolveLoop B fs pm fileDir projectPath specifiers).1,
         acc.2.1 ++ (resolveLoop B fs pm fileDir projectPath specifiers).2.1,
         acc.2.2 ++ (resolveLoop B fs pm fileDir projectPath specifiers).2.2) := by
  intro specifiers
  induction specifiers with
  | nil => intro acc; simp [resolveLoop]
  | cons s rest ih =>
      intro acc
      have hL : resolveLoop B fs pm fileDir projectPath (s :: rest) =
          rest.foldl (resolveStep B fs pm fileDir projectPath)
            (resolveStep B fs pm fileDir projectPath ([], [], []) s) := by
        simp [resolveLoop]
      rw [List.foldl_cons, ih, hL, ih, resolveStep_decomp]
      simp

/-- Membership characterisation of the three push-lists of the
`resolveImports` loop. -/
theorem resolveLoop_mem (B : List String) (fs : FS) (pm : PathModel)
    (fileDir projectPath : String) (specifiers : List String) :
    (∀ t, t ∈ (resolveLoop B fs pm fileDir projectPath specifiers).1 ↔
      ∃ s ∈ specifiers, isBuiltinModule B s = false ∧
        (strStarts s "." || strStarts s "/") = true ∧
        resolveFileTarget fs pm s fileDir projectPath = some t) ∧
    (∀ p, p ∈ (resolveLoop B fs pm fileDir projectPath specifiers).2.1 ↔
      ∃ s ∈ specifiers, isBuiltinModule B s = false ∧
        (strStarts s "." || strStarts s "/") = false ∧
        p = toPackageName s) ∧
    (∀ u, u ∈ (resolveLoop B fs pm fileDir projectPath specifiers).2.2 ↔
      u ∈ specifiers ∧ isBuiltinModule B u = false ∧
        (strStarts u "." || strStarts u "/") = true ∧
        resolveFileTarget fs pm u fileDir projectPath = none) := by
  induction specifiers with
  | nil => simp [resolveLoop]
  | cons s rest ih =>
      obtain ⟨ih1, ih2, ih3⟩ := ih
      have hL : resolveLoop B fs pm fileDir projectPath (s :: rest) =
          ((resolveStep B fs pm fileDir projectPath ([], [], []) s).1 ++
            (resolveLoop B fs pm fileDir projectPath rest).1,
           (resolveStep B fs pm fileDir projectPath ([], [], []) s).2.1 ++
            (resolveLoop B fs pm fileDir projectPath rest).2.1,
           (resolveStep B fs pm fileDir projectPath ([], [], []) s).2.2 ++
            (resolveLoop B fs pm fileDir projectPath rest).2.2) := by
        show List.foldl _ _ (s :: rest) = _
        rw [List.foldl_cons, foldl_resolveStep_decomp, resolveStep_decomp]
      refine ⟨fun t => ?_, fun p => ?_, fun u => ?_⟩
      · rw [hL]
        simp only [List.mem_append, ih1, List.mem_cons]
        by_cases hb : isBuiltinModule B s
        · simp only [resolveStep, hb, if_true]
          constructor
          · rintro (h | ⟨s', hs', hprop⟩)
            · simp at h
            · exact ⟨s', Or.inr hs', hprop⟩
          · rintro ⟨s', (rfl | hs'), hprop⟩
            · rw [hb] at hprop; simp at hprop
            · exact Or.inr ⟨s', hs', hprop⟩
        · by_cases hr : (strStarts s "." || strStarts s "/") = true
          · cases ht : resolveFileTarget fs pm s fileDir projectPath with
            | some t0 =>
                simp only [resolveStep, hb, if_false, hr, if_true, ht]
                constructor
                · rintro (h | ⟨s', hs', hprop⟩)
                  · simp at h
                    exact ⟨s, Or.inl rfl, by simp [hb], hr, by rw [ht, h]⟩
                  · exact ⟨s', Or.inr hs', hprop⟩
                · rintro ⟨s', (rfl | hs'), _, _, htgt⟩
                  · rw [ht] at htgt
                    simp at htgt
                    simp [htgt]
                  · exact Or.inr ⟨s', hs', by assumption, by assumption, by assumption⟩
            | none =>
                simp only [resolveStep, hb, if_false, hr, if_true, ht]
                constructor
                · rintro (h | ⟨s', hs', hprop⟩)
                  · simp at h
                  · exact ⟨s', Or.inr hs', hprop⟩
                · rintro ⟨s', (rfl | hs'), _, _, htgt⟩
                  · rw [ht] at htgt; simp at htgt
                  · exact Or.inr ⟨s', hs', by assumption, by assumption, by assumption⟩
          · simp only [resolveStep, hb, if_false, hr]
            constructor
            · rintro (h | ⟨s', hs', hprop⟩)
              · simp at h
              · exact ⟨s', Or.inr hs', hprop⟩
            · rintro ⟨s', (rfl | hs'), _, hrel, htgt⟩
              · exact absurd hrel hr
              · exact Or.inr ⟨s', hs', by assumption, by assumption, by assumption⟩
      · rw [hL]
        simp only [List.mem_append, ih2, List.mem_cons]
        by_cases hb : isBuiltinModule B s
        · simp only [resolveStep, hb, if_true]
          constructor
          · rintro (h | ⟨s', hs', hprop⟩)
            · simp at h
            · exact ⟨s', Or.inr hs', hprop⟩
          · rintro ⟨s', (rfl | hs'), hprop⟩
            · rw [hb] at hprop; simp at hprop
            · exact Or.inr ⟨s', hs', hprop⟩
        · by_cases hr : (strStarts s "." || strStarts s "/") = true
          · cases ht : resolveFileTarget fs pm s fileDir projectPath with
            | some t0 =>
                simp only [resolveStep, hb, if_false, hr, if_true, ht]
                constructor
                · rintro (h | ⟨s', hs', hprop⟩)
                  · simp at h
                  · exact ⟨s', Or.inr hs', hprop⟩
                · rintro ⟨s', (rfl | hs'), _, hrel, _⟩
                  · rw [hr] at hrel; simp at hrel
                  · exact Or.inr ⟨s', hs', by assumption, by assumption, by assumption⟩
            | none =>
                simp only [resolveStep, hb, if_false, hr, if_true, ht]
                constructor
                · rintro (h | ⟨s', hs', hprop⟩)
                  · simp at h
                  · exact ⟨s', Or.inr hs', hprop⟩
                · rintro ⟨s', (rfl | hs'), _, hrel, _⟩
                  · rw [hr] at hrel; simp at hrel
                  · exact Or.inr ⟨s', hs', by assumption, by assumption, by assumption⟩
          · simp only [resolveStep, hb, if_false, hr]
            constructor
            · rintro (h | ⟨s', hs', hprop⟩)
              · simp at h
                exact ⟨s, Or.inl rfl, by simp [hb], by simpa using hr, h⟩
              · exact ⟨s', Or.inr hs', hprop⟩
            · rintro ⟨s', (rfl | hs'), _, hrel, hp⟩
              · simp [hp]
              · exact Or.inr ⟨s', hs', by assumption, by assumption, by assumption⟩
      · rw [hL]
        simp only [List.mem_append, ih3, List.mem_cons]
        by_cases hb : isBuiltinModule B s
        · simp only [resolveStep, hb, if_true]
          constructor
          · rintro (h | ⟨hs', hprop⟩)
            · simp at h
            · exact ⟨Or.inr hs', hprop⟩
          · rintro ⟨(rfl | hs'), hnb, hprop⟩
            · rw [hb] at hnb; simp at hnb
            · exact Or.inr ⟨hs', hnb, hprop⟩
        · by_cases hr : (strStarts s "." || strStarts s "/") = true
          · cases ht : resolveFileTarget fs pm s fileDir projectPath with
            | some t0 =>
                simp only [resolveStep, hb, if_false, hr, if_true, ht]
                constructor
                · rintro (h | ⟨hs', hprop⟩)
                  · simp at h
                  · exact ⟨Or.inr hs', hprop⟩
                · rintro ⟨(rfl | hs'), _, _, htgt⟩
                  · rw [ht] at htgt; simp at htgt
                  · exact Or.inr ⟨hs', by assumption, by assumption, by assumption⟩
            | none =>
                simp only [resolveStep, hb, if_false, hr, if_true, ht]
                constructor
                · rintro (h | ⟨hs', hprop⟩)
                  · simp at h
                    exact ⟨Or.inl h, by rw [h]; simp [hb], by rw [h]; exact hr,
                      by rw [h]; exact ht⟩
                  · exact ⟨Or.inr hs', hprop⟩
                · rintro ⟨(rfl | hs'), _, _, htgt⟩
                  · exact Or.inl (by simp)
                  · exact Or.inr ⟨hs', by assumption, by assumption, by assumption⟩
          · simp only [resolveStep, hb, if_false, hr]
            constructor
            · rintro (h | ⟨hs', hprop⟩)
              · simp at h
              · exact ⟨Or.inr hs', hprop⟩
            · rintro ⟨(rfl | hs'), _, hrel, _⟩
              · exact absurd hrel hr
              · exact Or.inr ⟨hs', by assumption, by assumption, by assumption⟩

/-- A concrete project for exercising the resolver: `/proj/src/util.ts` is
a file and `/proj/src/dir` a directory holding `index.tsx`. -/
def rFS : FS := fun p =>
  if p = "/proj/src/util.ts" then some FsEntry.file
  else if p = "/proj/src/dir" then some FsEntry.directory
  else if p = "/proj/src/dir/index.tsx" then some FsEntry.file
  else none

/-- A concrete posix-style path module for the fixture project. -/
def rPM : PathModel :=
  ⟨fun d s => d ++ "/" ++ (if strStarts s "./" then strDrop s 2 else s),
   fun _ p => strDrop p 6,
   fun a b => a ++ "/" ++ b,
   '/'⟩

/-- A concrete built-in set derived from a small raw `builtinModules`. -/
def rB : List String := deriveBuiltinSet ["fs", "path", "node:test"]

/-- **C6**: every relative or absolute specifier that is not excluded by
the preceding built-in check routes to exactly one of two outputs: its
resolution is the first existing candidate under the fixed order (exact
path, each recognized extension appended, then `index.<ext>` inside a
directory), normalized project-relative; when some candidate exists the
normalized path is recorded in the file list and the specifier is not in
the unresolved list, and when no candidate exists the raw specifier is
recorded in the unresolved list (the importing file is associated at the
call site, which keys each result set by the importer) — never silently
dropped. -/
theorem resolveImports_relative_roundtrip
    (B : List String) (fs : FS) (pm : PathModel)
    (specifiers : List String) (fileDir projectPath spec : String)
    (hmem : spec ∈ specifiers)
    (hrel : (strStarts spec "." || strStarts spec "/") = true)
    (hnb : isBuiltinModule B spec = false) :
    resolveFileTarget fs pm spec fileDir projectPath =
      ((candidateList fs pm (if strStarts spec "/" then
          pm.resolve projectPath ("." ++ spec)
        else pm.resolve fileDir spec)).find? (fun c => isFile fs c)).map
        (normalizePath pm projectPath) ∧
    (∀ t, resolveFileTarget fs pm spec fileDir projectPath = some t →
      t ∈ (resolveImports B fs pm specifiers fileDir projectPath).files ∧
      spec ∉ (resolveImports B fs pm specifiers fileDir projectPath).unresolved) ∧
    (resolveFileTarget fs pm spec fileDir projectPath = none →
      spec ∈ (resolveImports B fs pm specifiers fileDir projectPath).unresolved) := by
  obtain ⟨hc1, hc2, hc3⟩ := resolveLoop_mem B fs pm fileDir projectPath specifiers
  refine ⟨?_, fun t ht => ⟨?_, ?_⟩, fun ht => ?_⟩
  · show (resolveFile fs pm _).map (normalizePath pm projectPath) = _
    rw [resolveFile_eq_find]
  · show t ∈ uniqSorted (resolveLoop B fs pm fileDir projectPath specifiers).1
    rw [mem_uniqSorted, hc1]
    exact ⟨spec, hmem, hnb, hrel, ht⟩
  · show spec ∉ uniqSorted (resolveLoop B fs pm fileDir projectPath specifiers).2.2
    rw [mem_uniqSorted, hc3]
    rintro ⟨-, -, -, hnone⟩
    rw [ht] at hnone
    exact Option.noConfusion hnone
  · show spec ∈ uniqSorted (resolveLoop B fs pm fileDir projectPath specifiers).2.2
    rw [mem_uniqSorted, hc3]
    exact ⟨hmem, hnb, hrel, ht⟩

unseal List.merge List.mergeSort in
theorem resolveImports_relative_roundtrip_witness :
    (("./util" ∈ (["fs", "./util", "./missing"] : List String)) ∧
      (strStarts "./util" "." || strStarts "./util" "/") = true ∧
      isBuiltinModule rB "./util" = false) ∧
    "src/util.ts" ∈
      (resolveImports rB rFS rPM ["fs", "./util", "./missing"] "/proj/src" "/proj").files ∧
    "./util" ∉
      (resolveImports rB rFS rPM ["fs", "./util", "./missing"] "/proj/src" "/proj").unresolved ∧
    "./missing" ∈
      (resolveImports rB rFS rPM ["fs", "./util", "./missing"] "/proj/src" "/proj").unresolved :=
  ⟨⟨by decide, by decide, by decide⟩,
   ((resolveImports_relative_roundtrip rB rFS rPM ["fs", "./util", "./missing"]
      "/proj/src" "/proj" "./util" (by decide) (by decide) (by decide)).2.1
      "src/util.ts" (by decide)).1,
   ((resolveImports_relative_roundtrip rB rFS rPM ["fs", "./util", "./missing"]
      "/proj/src" "/proj" "./util" (by decide) (by decide) (by decide)).2.1
      "src/util.ts" (by decide)).2,
   (resolveImports_relative_roundtrip rB rFS rPM ["fs", "./util", "./missing"]
      "/proj/src" "/proj" "./missing" (by decide) (by decide) (by decide)).2.2
      (by decide)⟩

theorem foldl_resolveStep_filter (B : List String) (fs : FS) (pm : PathModel)
    (fileDir projectPath : String) :
    ∀ (specifiers : List String) (acc : List String × List String × List String),
      specifiers.foldl (resolveStep B fs pm fileDir projectPath) acc =
        (specifiers.filter (fun s => !isBuiltinModule B s)).foldl
          (resolveStep B fs pm fileDir projectPath) acc := by
  intro specifiers
  induction specifiers with
  | nil => intro acc; rfl
  | cons s rest ih =>
      intro acc
      by_cases hb : isBuiltinModule B s
      · have hstep : resolveStep B fs pm fileDir projectPath acc s = acc := by
          unfold resolveStep
          simp [hb]
        simp only [List.filter_cons, hb, Bool.not_true, if_false, List.foldl_cons,
          hstep]
        exact ih acc
      · simp only [List.filter_cons, hb, Bool.not_false, if_true, List.foldl_cons]
        exact ih _

/-- **C7**: a specifier classified as a platform built-in is skipped by the
resolver loop, so the outputs coincide with those computed from the input
with all built-ins removed; no built-in specifier is ever in the unresolved
list; every package-graph entry originates from a non-built-in bare
specifier; and the built-in check matches a bare built-in name, a
`node:`-namespaced one, and any subpath whose first segment is a built-in
name. -/
theorem resolveImports_builtin_excluded
    (B : List String) (fs : FS) (pm : PathModel)
    (specifiers : List String) (fileDir projectPath : String) :
    resolveImports B fs pm specifiers fileDir projectPath =
      resolveImports B fs pm
        (specifiers.filter (fun s => !isBuiltinModule B s)) fileDir projectPath ∧
    (∀ s, isBuiltinModule B s = true →
      s ∉ (resolveImports B fs pm specifiers fileDir projectPath).unresolved) ∧
    (∀ p, p ∈ (resolveImports B fs pm specifiers fileDir projectPath).packages →
      ∃ s ∈ specifiers, isBuiltinModule B s = false ∧
        (strStarts s "." || strStarts s "/") = false ∧ p = toPackageName s) ∧
    (∀ s, s ∈ B ∨ stripNodeNs s ∈ B ∨ rootSegOf (stripNodeNs s) ∈ B →
      isBuiltinModule B s = true) := by
  obtain ⟨hc1, hc2, hc3⟩ := resolveLoop_mem B fs pm fileDir projectPath specifiers
  have hloop : resolveLoop B fs pm fileDir projectPath specifiers =
      resolveLoop B fs pm fileDir projectPath
        (specifiers.filter (fun s => !isBuiltinModule B s)) :=
    foldl_resolveStep_filter B fs pm fileDir projectPath specifiers ([], [], [])
  refine ⟨?_, fun s hb hmem => ?_, fun p hp => ?_, fun s h => ?_⟩
  · simp only [resolveImports, hloop]
  · rw [show (resolveImports B fs pm specifiers fileDir projectPath).unresolved =
        uniqSorted (resolveLoop B fs pm fileDir projectPath specifiers).2.2 from rfl,
      mem_uniqSorted, hc3] at hmem
    rw [hmem.2.1] at hb
    exact Bool.noConfusion hb
  · rw [show (resolveImports B fs pm specifiers fileDir projectPath).packages =
        uniqSorted (resolveLoop B fs pm fileDir projectPath specifiers).2.1 from rfl,
      mem_uniqSorted, hc2] at hp
    exact hp
  · rcases h with h | h | h
    · simp [isBuiltinModule, h]
    · simp [isBuiltinModule, h]
    · by_cases h2 : (s ∈ B || stripNodeNs s ∈ B : Bool) = true
      · simp [isBuiltinModule, h2]
      · simp only [isBuiltinModule]
        rw [if_neg (by simpa using h2)]
        simp [h]

unseal List.merge List.mergeSort in
theorem resolveImports_builtin_excluded_witness :
    (isBuiltinModule rB "fs" = true ∧
      "fs" ∉ (resolveImports rB rFS rPM ["fs", "lodash/fp"] "/proj/src" "/proj").unresolved) ∧
    ("lodash" ∈ (resolveImports rB rFS rPM ["fs", "lodash/fp"] "/proj/src" "/proj").packages ∧
      (∃ s ∈ (["fs", "lodash/fp"] : List String), isBuiltinModule rB s = false ∧
        (strStarts s "." || strStarts s "/") = false ∧ "lodash" = toPackageName s)) ∧
    isBuiltinModule rB "node:fs" = true ∧
    isBuiltinModule rB "test" = true ∧
    isBuiltinModule rB "fs/promises" = true :=
  ⟨⟨by decide,
    (resolveImports_builtin_excluded rB rFS rPM ["fs", "lodash/fp"] "/proj/src"
      "/proj").2.1 "fs" (by decide)⟩,
   ⟨by decide,
    (resolveImports_builtin_excluded rB rFS rPM ["fs", "lodash/fp"] "/proj/src"
      "/proj").2.2.1 "lodash" (by decide)⟩,
   (resolveImports_builtin_excluded rB rFS rPM ["fs", "lodash/fp"] "/proj/src"
      "/proj").2.2.2 "node:fs" (Or.inr (Or.inl (by decide))),
   (resolveImports_builtin_excluded rB rFS rPM ["fs", "lodash/fp"] "/proj/src"
      "/proj").2.2.2 "test" (Or.inl (by decide)),
   (resolveImports_builtin_excluded rB rFS rPM ["fs", "lodash/fp"] "/proj/src"
      "/proj").2.2.2 "fs/promises" (Or.inr (Or.inr (by decide)))⟩

/-! ## Workspace merge of per-package import graphs (src/src/cli.ts 233–262) -/

/-- One runner's import graph as `mergeImportGraphs` receives it:
`none` fields model an absent or non-array JSON value (`g.files || {}`,
`Array.isArray(v) ? ... : []`); a `none` unresolved entry models one whose
`importer` or `specifier` is not a string, which the loop drops. -/
structure RawImportGraph where
  files : Option (List (String × Option (List String)))
  packages : Option (List (String × Option (List String)))
  unresolvedImports : Option (List (Option (String × String)))
deriving Repr, DecidableEq

structure MergedImportGraph where
  files : List (String × List String)
  packages : List (String × List String)
  unresolvedImports : List (String × String)
deriving Repr, DecidableEq

/-- The per-package path fragment: `relBase ? relBase + '/' : ''` with
`relBase = path.relative(rootPath, meta.path).split(path.sep).join('/')`. -/
def pfxOf (pm : PathModel) (rootPath metaPath : String) : String :=
  let relBase := normalizePath pm rootPath metaPath
  if relBase = "" then "" else relBase ++ "/"

/-- One iteration of the `for (let i = 0; ...)` loop of `mergeImportGraphs`
(cli.ts 240–258): a missing graph is skipped; file keys and file-graph
targets are prefixed; package keys are prefixed, package value arrays are
not; unresolved importer fields are prefixed, specifiers kept raw. -/
def mergeGraphStep (pm : PathModel) (rootPath : String)
    (acc : MergedImportGraph) (entry : Option RawImportGraph × String) :
    MergedImportGraph :=
  match entry.1 with
  | none => acc
  | some g =>
      let pfx := pfxOf pm rootPath entry.2
      let files1 := (g.files.getD []).foldl
        (fun m kv => alSet m (pfx ++ kv.1)
          ((kv.2.getD []).map (fun x => pfx ++ x))) acc.files
      let packages1 := (g.packages.getD []).foldl
        (fun m kv => alSet m (pfx ++ kv.1) (kv.2.getD [])) acc.packages
      let unresolved1 := acc.unresolvedImports ++
        (g.unresolvedImports.getD []).filterMap
          (fun u => u.map (fun q => (pfx ++ q.1, q.2)))
      ⟨files1, packages1, unresolved1⟩

/-- `mergeImportGraphs` (cli.ts 233–262), over the zipped parallel arrays
`graphs`/`packageMetas` (only `meta.path` is read). -/
def mergeImportGraphs (pm : PathModel) (rootPath : String)
    (entries : List (Option RawImportGraph × String)) : MergedImportGraph :=
  entries.foldl (mergeGraphStep pm rootPath) ⟨[], [], []⟩

theorem mem_alSet {α : Type} {p : String × α} :
    ∀ {m : List (String × α)} {k : String} {v : α},
      p ∈ alSet m k v → p = (k, v) ∨ p ∈ m := by
  intro m
  induction m with
  | nil => intro k v h; simpa [alSet] using h
  | cons q rest ih =>
      intro k v h
      rw [alSet] at h
      by_cases hk : q.1 = k
      · rw [if_pos hk] at h
        rcases List.mem_cons.mp h with h | h
        · exact Or.inl h
        · exact Or.inr (List.mem_cons_of_mem _ h)
      · rw [if_neg hk] at h
        rcases List.mem_cons.mp h with h | h
        · exact Or.inr (h ▸ List.mem_cons_self _ _)
        · rcases ih h with h | h
          · exact Or.inl h
          · exact Or.inr (List.mem_cons_of_mem _ h)

theorem mem_foldl_alSet {α β : Type} (f : β → String) (h : β → α)
    (p : String × α) :
    ∀ (l : List β) (acc : List (String × α)),
      p ∈ l.foldl (fun m kv => alSet m (f kv) (h kv)) acc →
        p ∈ acc ∨ ∃ kv ∈ l, p = (f kv, h kv) := by
  intro l
  induction l with
  | nil => intro acc hp; exact Or.inl hp
  | cons kv rest ih =>
      intro acc hp
      rw [List.foldl_cons] at hp
      rcases ih _ hp with hp | ⟨kv', hkv', rfl⟩
      · rcases mem_alSet hp with hp | hp
        · exact Or.inr ⟨kv, List.mem_cons_self _ _, hp⟩
        · exact Or.inl hp
      · exact Or.inr ⟨kv', List.mem_cons_of_mem _ hkv', rfl⟩

/-- Every file binding of the merged graph originates from some present
per-package graph, with the key and every target prefixed by that
package's fragment. -/
theorem mergeImportGraphs_files_shape (pm : PathModel) (rootPath : String) :
    ∀ (entries : List (Option RawImportGraph × String))
      (p : String × List String),
      p ∈ (mergeImportGraphs pm rootPath entries).files →
        ∃ g mp, (some g, mp) ∈ entries ∧
          ∃ kv ∈ g.files.getD [],
            p = (pfxOf pm rootPath mp ++ kv.1,
              (kv.2.getD []).map (fun x => pfxOf pm rootPath mp ++ x)) := by
  intro entries
  induction entries using List.reverseRecOn with
  | nil => intro p hp; simp [mergeImportGraphs] at hp
  | append_singleton rest entry ih =>
      intro p hp
      rw [show mergeImportGraphs pm rootPath (rest ++ [entry]) =
          mergeGraphStep pm rootPath (mergeImportGraphs pm rootPath rest) entry by
        simp [mergeImportGraphs]]
      at hp
      match entry with
      | (none, mp) =>
          rcases ih p hp with ⟨g, mp', hmem, hrest⟩
          exact ⟨g, mp', List.mem_append_left _ hmem, hrest⟩
      | (some g, mp) =>
          rcases mem_foldl_alSet _ _ _ _ _ hp with hp | ⟨kv, hkv, rfl⟩
          · rcases ih p hp with ⟨g', mp', hmem, hrest⟩
            exact ⟨g', mp', List.mem_append_left _ hmem, hrest⟩
          · exact ⟨g, mp, List.mem_append_right _ (List.mem_singleton_self _),
              kv, hkv, rfl⟩

/-- Sub-package `pkgA`: `src/index.ts` imports `src/util.ts` and `lodash`. -/
def gA : RawImportGraph :=
  ⟨some [("src/index.ts", some ["src/util.ts"])],
   some [("lodash", some ["src/index.ts"])], some []⟩

/-- Sub-package `pkgB`: a same-named `src/index.ts` with no imports. -/
def gB : RawImportGraph :=
  ⟨some [("src/index.ts", some [])], none, none⟩

/-- **C9**: in workspace mode every merged file binding carries the
sub-package's project-relative fragment on its key and on every file-graph
target; concretely, two sub-packages that both contain `src/index.ts` are
merged without collision as `pkgA/src/index.ts` and `pkgB/src/index.ts`. -/
theorem mergeImportGraphs_prefixed_no_collision
    (pm : PathModel) (rootPath : String)
    (entries : List (Option RawImportGraph × String)) :
    (∀ p ∈ (mergeImportGraphs pm rootPath entries).files,
      ∃ g mp, (some g, mp) ∈ entries ∧
        ∃ kv ∈ g.files.getD [],
          p = (pfxOf pm rootPath mp ++ kv.1,
            (kv.2.getD []).map (fun x => pfxOf pm rootPath mp ++ x))) ∧
    mergeImportGraphs rPM "/root" [(some gA, "/root/pkgA"), (some gB, "/root/pkgB")] =
      ⟨[("pkgA/src/index.ts", ["pkgA/src/util.ts"]), ("pkgB/src/index.ts", [])],
       [("pkgA/lodash", ["src/index.ts"])], []⟩ :=
  ⟨mergeImportGraphs_files_shape pm rootPath entries, by decide⟩

theorem mergeImportGraphs_prefixed_no_collision_witness :
    ("pkgA/src/index.ts", ["pkgA/src/util.ts"]) ∈
      (mergeImportGraphs rPM "/root"
        [(some gA, "/root/pkgA"), (some gB, "/root/pkgB")]).files ∧
    ∃ g mp, (some g, mp) ∈ [(some gA, "/root/pkgA"), (some gB, "/root/pkgB")] ∧
      ∃ kv ∈ g.files.getD [],
        ("pkgA/src/index.ts", ["pkgA/src/util.ts"]) =
          (pfxOf rPM "/root" mp ++ kv.1,
            (kv.2.getD []).map (fun x => pfxOf rPM "/root" mp ++ x)) :=
  ⟨by decide,
   (mergeImportGraphs_prefixed_no_collision rPM "/root"
      [(some gA, "/root/pkgA"), (some gB, "/root/pkgB")]).1
      ("pkgA/src/index.ts", ["pkgA/src/util.ts"]) (by decide)⟩

/-! ## aggregateData (src/src/aggregator.ts 128–270)

The embedding carries the fields the claims speak about. The awaited
collaborators of the loop (license reads, maintenance lookups, package
insights, git branch) feed only fields outside those claims and are not
modelled; `localeCompare` is locale-dependent and enters as an order
parameter. -/

/-- `ToolResult<T>` (src/src/types.ts 76–81). -/
structure ToolResult (α : Type) where
  ok : Bool
  data : Option α
  error : Option String

/-- The claim-relevant fields of a `DependencyRecord` as pushed by the
aggregate loop (aggregator.ts 219–253). -/
structure DependencyRecord where
  name : String
  version : String
  key : String
  direct : Bool
  transitive : Bool
  depth : Nat
  parents : List String
  rootCauses : List String
  vulnerabilities : VulnerabilitySummary
  runtimeClass : RuntimeClass
  runtimeReason : String
deriving Repr, DecidableEq

/-- `toolErrors` (aggregator.ts 135–139): one entry per present failed
result, keyed by the collaborator's identity, `'unknown error'` standing
in for an absent or falsy error string. -/
def buildToolErrors {α β γ : Type} (auditResult : Option (ToolResult α))
    (npmLsResult : Option (ToolResult β))
    (importGraphResult : Option (ToolResult γ)) : List (String × String) :=
  let te0 : List (String × String) := []
  let te1 :=
    match auditResult with
    | some r =>
        if r.ok then te0
        else alSet te0 "npm-audit" (jsOrString r.error "unknown error")
    | none => te0
  let te2 :=
    match npmLsResult with
    | some r =>
        if r.ok then te1
        else alSet te1 "npm-ls" (jsOrString r.error "unknown error")
    | none => te1
  match importGraphResult with
  | some r =>
      if r.ok then te2
      else alSet te2 "import-graph" (jsOrString r.error "unknown error")
  | none => te2

/-- The `for (const node of nodes)` loop (aggregator.ts 163–253),
restricted to the claim-relevant record fields; the runtime memo threads
through the iterations exactly as `runtimeCache` does in the source. -/
def recordLoop (pkg : Pkg) (nodeMap : NodeMap) (vulnMap : VulnMap) :
    List NodeInfo → RtCache → List DependencyRecord × RtCache
  | [], cache => ([], cache)
  | node :: rest, cache =>
      let direct := isDirectDependency node.name pkg
      let vulnerabilities := (alGet vulnMap node.name).getD emptyVulnSummary
      let runtimeData := classifyRuntime pkg nodeMap node.key [] cache
      let rootCauses := findRootCauses node nodeMap pkg
      let entry : DependencyRecord :=
        ⟨node.name, node.version, node.key, direct, !direct, node.depth,
         node.parents, rootCauses, vulnerabilities,
         runtimeData.1.classification, runtimeData.1.reason⟩
      let rest' := recordLoop pkg nodeMap vulnMap rest runtimeData.2
      (entry :: rest'.1, rest'.2)

/-- The record list in node-map iteration order, before the final sort
(`Array.from(nodeMap.values())`, aggregator.ts 159 and 163–253). -/
def aggregateRecords (pkg : Pkg) (auditData : Option AuditData)
    (lsData : Option LsData) : List DependencyRecord :=
  let nodeMap := buildNodeMap lsData pkg
  let vulnMap := parseVulnerabilities auditData
  (recordLoop pkg nodeMap vulnMap (List.map Prod.snd nodeMap) []).1

/-- The claim-relevant core of `aggregateData` (aggregator.ts 128–270):
the dependency records, sorted by `a.name.localeCompare(b.name)`
(aggregator.ts 254), and the `toolErrors` object. -/
def aggregateDependencies {γ : Type} (pkg : Pkg)
    (auditResult : Option (ToolResult AuditData))
    (npmLsResult : Option (ToolResult LsData))
    (importGraphResult : Option (ToolResult γ))
    (localeLe : String → String → Bool) :
    List DependencyRecord × List (String × String) :=
  ((aggregateRecords pkg (auditResult.bind ToolResult.data)
      (npmLsResult.bind ToolResult.data)).mergeSort
     (fun a b => localeLe a.name b.name),
   buildToolErrors auditResult npmLsResult importGraphResult)

theorem alGet_mem {α : Type} {k : String} {v : α} :
    ∀ {m : List (String × α)}, alGet m k = some v → (k, v) ∈ m := by
  intro m
  induction m with
  | nil => intro h; simp [alGet] at h
  | cons q rest ih =>
      intro h
      rw [alGet] at h
      by_cases hk : q.1 = k
      · rw [if_pos hk] at h
        have : q = (k, v) := by
          obtain ⟨q1, q2⟩ := q
          simp_all
        exact this ▸ List.mem_cons_self _ _
      · rw [if_neg hk] at h
        exact List.mem_cons_of_mem _ (ih h)

theorem alGet_foldl_alSet_pres {α β : Type} (f : β → String) (h : β → α)
    (k : String) :
    ∀ (l : List β) (acc : List (String × α)),
      (alGet acc k).isSome →
        (alGet (l.foldl (fun m kv => alSet m (f kv) (h kv)) acc) k).isSome := by
  intro l
  induction l with
  | nil => intro acc hp; exact hp
  | cons kv rest ih =>
      intro acc hp
      rw [List.foldl_cons]
      apply ih
      by_cases hk : f kv = k
      · rw [hk, alGet_alSet_self]; rfl
      · rw [alGet_alSet_ne _ _ _ _ hk]; exact hp

theorem alGet_foldl_alSet_present {α β : Type} (f : β → String) (h : β → α)
    {b : β} :
    ∀ (l : List β) (acc : List (String × α)), b ∈ l →
      (alGet (l.foldl (fun m kv => alSet m (f kv) (h kv)) acc) (f b)).isSome := by
  intro l
  induction l with
  | nil => intro acc hb; simp at hb
  | cons kv rest ih =>
      intro acc hb
      rw [List.foldl_cons]
      rcases List.mem_cons.mp hb with rfl | hb
      · exact alGet_foldl_alSet_pres f h (f b) rest _
          (by rw [alGet_alSet_self]; rfl)
      · exact ih _ hb

theorem recordLoop_forward (pkg : Pkg) (nodeMap : NodeMap) (vulnMap : VulnMap) :
    ∀ (nodes : List NodeInfo) (cache : RtCache) (d : DependencyRecord),
      d ∈ (recordLoop pkg nodeMap vulnMap nodes cache).1 →
        ∃ node ∈ nodes, d.name = node.name ∧ d.version = node.version ∧
          d.key = node.key ∧ d.depth = node.depth ∧ d.parents = node.parents ∧
          d.direct = isDirectDependency node.name pkg ∧
          d.transitive = !d.direct ∧
          d.rootCauses = findRootCauses node nodeMap pkg ∧
          d.vulnerabilities = (alGet vulnMap node.name).getD emptyVulnSummary := by
  intro nodes
  induction nodes with
  | nil => intro cache d hd; simp [recordLoop] at hd
  | cons node rest ih =>
      intro cache d hd
      rw [recordLoop] at hd
      rcases List.mem_cons.mp hd with rfl | hd
      · exact ⟨node, List.mem_cons_self _ _, rfl, rfl, rfl, rfl, rfl, rfl, rfl,
          rfl, rfl⟩
      · obtain ⟨n', hn', hfields⟩ := ih _ d hd
        exact ⟨n', List.mem_cons_of_mem _ hn', hfields⟩

theorem recordLoop_complete (pkg : Pkg) (nodeMap : NodeMap) (vulnMap : VulnMap) :
    ∀ (nodes : List NodeInfo) (cache : RtCache) (node : NodeInfo),
      node ∈ nodes →
        ∃ d ∈ (recordLoop pkg nodeMap vulnMap nodes cache).1,
          d.name = node.name ∧ d.version = node.version ∧
          d.key = node.key ∧ d.depth = node.depth ∧ d.parents = node.parents ∧
          d.direct = isDirectDependency node.name pkg ∧
          d.transitive = !d.direct ∧
          d.rootCauses = findRootCauses node nodeMap pkg ∧
          d.vulnerabilities = (alGet vulnMap node.name).getD emptyVulnSummary := by
  intro nodes
  induction nodes with
  | nil => intro cache node hn; simp at hn
  | cons n0 rest ih =>
      intro cache node hn
      rcases List.mem_cons.mp hn with rfl | hn
      · refine ⟨_, by rw [recordLoop]; exact List.mem_cons_self _ _,
          rfl, rfl, rfl, rfl, rfl, rfl, rfl, rfl, rfl⟩
      · obtain ⟨d, hd, hfields⟩ := ih _ node hn
        exact ⟨d, by rw [recordLoop]; exact List.mem_cons_of_mem _ hd, hfields⟩

/-- **C8**: with the manifest readable and every collaborator failed (all
three results present, not ok, no data), aggregation still produces a
complete result: `toolErrors` holds one entry per failed tool keyed
`npm-audit`/`npm-ls`/`import-graph` carrying its error string (or
`'unknown error'`), and the record set is exactly the flat-manifest
fallback — every record is a declared dependency or devDependency at
depth 1 with no parents and the empty vulnerability summary, and every
declared entry yields such a record. -/
theorem aggregateData_degraded {γ : Type} (pkg : Pkg) (ea el eg : Option String)
    (localeLe : String → String → Bool) :
    (aggregateDependencies pkg (some ⟨false, none, ea⟩) (some ⟨false, none, el⟩)
        (some (⟨false, none, eg⟩ : ToolResult γ)) localeLe).2 =
      [("npm-audit", jsOrString ea "unknown error"),
       ("npm-ls", jsOrString el "unknown error"),
       ("import-graph", jsOrString eg "unknown error")] ∧
    (∀ d ∈ (aggregateDependencies pkg (some ⟨false, none, ea⟩)
        (some ⟨false, none, el⟩) (some (⟨false, none, eg⟩ : ToolResult γ))
        localeLe).1,
      ∃ q ∈ pkg.dependencies.getD [] ++ pkg.devDependencies.getD [],
        d.name = q.1 ∧ d.version = q.2 ∧ d.key = q.1 ++ "@" ++ q.2 ∧
        d.depth = 1 ∧ d.parents = [] ∧
        d.vulnerabilities = emptyVulnSummary ∧
        d.direct = isDirectDependency q.1 pkg ∧ d.transitive = !d.direct) ∧
    (∀ q ∈ pkg.dependencies.getD [] ++ pkg.devDependencies.getD [],
      ∃ d ∈ (aggregateDependencies pkg (some ⟨false, none, ea⟩)
          (some ⟨false, none, el⟩) (some (⟨false, none, eg⟩ : ToolResult γ))
          localeLe).1,
        d.key = q.1 ++ "@" ++ q.2 ∧ d.depth = 1 ∧ d.parents = [] ∧
        d.vulnerabilities = emptyVulnSummary) := by
  have hNM : buildNodeMap none pkg =
      fallbackEntries (pkg.devDependencies.getD []) true
        (fallbackEntries (pkg.dependencies.getD []) false []) := rfl
  have hfold1 : ∀ (l : List (String × String)) (acc : NodeMap),
      fallbackEntries l false acc =
        l.foldl (fun m kv => alSet m (kv.1 ++ "@" ++ kv.2)
          ((⟨kv.1, kv.2, kv.1 ++ "@" ++ kv.2, 1, [], [], some false⟩ : NodeInfo)))
          acc := fun _ _ => rfl
  have hfold2 : ∀ (l : List (String × String)) (acc : NodeMap),
      fallbackEntries l true acc =
        l.foldl (fun m kv => alSet m (kv.1 ++ "@" ++ kv.2)
          ((⟨kv.1, kv.2, kv.1 ++ "@" ++ kv.2, 1, [], [], some true⟩ : NodeInfo)))
          acc := fun _ _ => rfl
  refine ⟨rfl, ?_, ?_⟩
  · intro d hd
    rw [show (aggregateDependencies pkg (some ⟨false, none, ea⟩)
        (some ⟨false, none, el⟩) (some (⟨false, none, eg⟩ : ToolResult γ))
        localeLe).1 =
      (aggregateRecords pkg none none).mergeSort
        (fun a b => localeLe a.name b.name) from rfl,
      List.mem_mergeSort] at hd
    obtain ⟨node, hnode, h1, h2, h3, h4, h5, h6, h7, h8, h9⟩ :=
      recordLoop_forward pkg (buildNodeMap none pkg) (parseVulnerabilities none)
        (List.map Prod.snd (buildNodeMap none pkg)) [] d hd
    obtain ⟨kv, hkv, hkveq⟩ := List.mem_map.mp hnode
    rw [hNM, hfold2] at hkv
    have hvuln : d.vulnerabilities = emptyVulnSummary := h9
    rcases mem_foldl_alSet (fun p : String × String => p.1 ++ "@" ++ p.2)
        (fun p : String × String => (⟨p.1, p.2, p.1 ++ "@" ++ p.2, 1, [], [], some true⟩ : NodeInfo))
        kv _ _ hkv with hkv' | ⟨q, hq, rfl⟩
    · rw [hfold1] at hkv'
      rcases mem_foldl_alSet (fun p : String × String => p.1 ++ "@" ++ p.2)
          (fun p : String × String => (⟨p.1, p.2, p.1 ++ "@" ++ p.2, 1, [], [], some false⟩ : NodeInfo))
          kv _ _ hkv' with h0 | ⟨q, hq, rfl⟩
      · simp at h0
      · refine ⟨q, List.mem_append_left _ hq, ?_⟩
        rw [← hkveq] at h1 h2 h3 h4 h5 h6
        exact ⟨h1, h2, h3, h4, h5, hvuln, h6, h7⟩
    · refine ⟨q, List.mem_append_right _ hq, ?_⟩
      rw [← hkveq] at h1 h2 h3 h4 h5 h6
      exact ⟨h1, h2, h3, h4, h5, hvuln, h6, h7⟩
  · intro q hq
    have hsome : (alGet (buildNodeMap none pkg) (q.1 ++ "@" ++ q.2)).isSome := by
      rw [hNM, hfold2]
      rcases List.mem_append.mp hq with hq | hq
      · apply alGet_foldl_alSet_pres
        rw [hfold1] at *
        exact alGet_foldl_alSet_present (fun p : String × String => p.1 ++ "@" ++ p.2)
          (fun p : String × String => (⟨p.1, p.2, p.1 ++ "@" ++ p.2, 1, [], [], some false⟩ : NodeInfo))
          _ _ hq
      · exact alGet_foldl_alSet_present (fun p : String × String => p.1 ++ "@" ++ p.2)
          (fun p : String × String => (⟨p.1, p.2, p.1 ++ "@" ++ p.2, 1, [], [], some true⟩ : NodeInfo))
          _ _ hq
    obtain ⟨v, hv⟩ := Option.isSome_iff_exists.mp hsome
    have hmemv := alGet_mem hv
    have hshape : v.key = q.1 ++ "@" ++ q.2 ∧ v.depth = 1 ∧ v.parents = [] := by
      have hkv := hmemv
      rw [hNM, hfold2] at hkv
      rcases mem_foldl_alSet (fun p : String × String => p.1 ++ "@" ++ p.2)
          (fun p : String × String => (⟨p.1, p.2, p.1 ++ "@" ++ p.2, 1, [], [], some true⟩ : NodeInfo))
          _ _ _ hkv with hkv' | ⟨q', hq', heq⟩
      · rw [hfold1] at hkv'
        rcases mem_foldl_alSet (fun p : String × String => p.1 ++ "@" ++ p.2)
            (fun p : String × String => (⟨p.1, p.2, p.1 ++ "@" ++ p.2, 1, [], [], some false⟩ : NodeInfo))
            _ _ _ hkv' with h0 | ⟨q', hq', heq⟩
        · simp at h0
        · obtain ⟨hk, hval⟩ := Prod.mk.inj heq
          rw [hval]
          exact ⟨hk.symm, rfl, rfl⟩
      · obtain ⟨hk, hval⟩ := Prod.mk.inj heq
        rw [hval]
        exact ⟨hk.symm, rfl, rfl⟩
    have hvmem : v ∈ List.map Prod.snd (buildNodeMap none pkg) :=
      List.mem_map.mpr ⟨_, hmemv, rfl⟩
    obtain ⟨d, hd, hf1, hf2, hf3, hf4, hf5, hf6, hf7, hf8, hf9⟩ :=
      recordLoop_complete pkg (buildNodeMap none pkg) (parseVulnerabilities none)
        (List.map Prod.snd (buildNodeMap none pkg)) [] v hvmem
    refine ⟨d, ?_, ?_, ?_, ?_, hf9⟩
    · rw [show (aggregateDependencies pkg (some ⟨false, none, ea⟩)
          (some ⟨false, none, el⟩) (some (⟨false, none, eg⟩ : ToolResult γ))
          localeLe).1 =
        (aggregateRecords pkg none none).mergeSort
          (fun a b => localeLe a.name b.name) from rfl,
        List.mem_mergeSort]
      exact hd
    · rw [hf3, hshape.1]
    · rw [hf4, hshape.2.1]
    · rw [hf5, hshape.2.2]

/-- A manifest declaring dependency `a` and devDependency `b`. -/
def pkg8 : Pkg := ⟨some [("a", "^1.0.0")], some [("b", "^2.0.0")]⟩

unseal List.merge List.mergeSort bfsRootCauses classifyRuntime classifyParents in
theorem aggregateData_degraded_witness :
    (aggregateDependencies pkg8 (some ⟨false, none, some "audit boom"⟩)
        (some ⟨false, none, some ""⟩) (some (⟨false, none, none⟩ : ToolResult Unit))
        strLe).2 =
      [("npm-audit", "audit boom"), ("npm-ls", "unknown error"),
       ("import-graph", "unknown error")] ∧
    (("a", "^1.0.0") ∈ pkg8.dependencies.getD [] ++ pkg8.devDependencies.getD [] ∧
      ∃ d ∈ (aggregateDependencies pkg8 (some ⟨false, none, some "audit boom"⟩)
          (some ⟨false, none, some ""⟩)
          (some (⟨false, none, none⟩ : ToolResult Unit)) strLe).1,
        d.key = "a@^1.0.0" ∧ d.depth = 1 ∧ d.parents = [] ∧
        d.vulnerabilities = emptyVulnSummary) :=
  ⟨by
    rw [(@aggregateData_degraded Unit pkg8 (some "audit boom") (some "") none
      strLe).1]
    decide,
   by decide,
   (@aggregateData_degraded Unit pkg8 (some "audit boom") (some "") none
      strLe).2.2 ("a", "^1.0.0") (by decide)⟩

theorem charListLe_trans :
    ∀ a b c, charListLe a b = true → charListLe b c = true →
      charListLe a c = true := by
  intro a
  induction a with
  | nil => intro b c _ _; rfl
  | cons x xs ih =>
      intro b c h1 h2
      cases b with
      | nil => simp [charListLe] at h1
      | cons y ys =>
          cases c with
          | nil => simp [charListLe] at h2
          | cons z zs =>
              rw [charListLe] at h1 h2 ⊢
              by_cases hxy : x = y
              · subst hxy
                rw [if_pos rfl] at h1
                by_cases hyz : x = z
                · subst hyz
                  rw [if_pos rfl] at h2 ⊢
                  exact ih _ _ h1 h2
                · rw [if_neg hyz] at h2 ⊢
                  exact h2
              · rw [if_neg hxy] at h1
                have hlt1 : x < y := of_decide_eq_true h1
                by_cases hyz : y = z
                · subst hyz
                  rw [if_neg hxy]
                  exact h1
                · rw [if_neg hyz] at h2
                  have hlt2 : y < z := of_decide_eq_true h2
                  have hxz : x < z := lt_trans hlt1 hlt2
                  rw [if_neg (ne_of_lt hxz)]
                  exact decide_eq_true hxz

theorem charListLe_total :
    ∀ a b, (charListLe a b || charListLe b a) = true := by
  intro a
  induction a with
  | nil => intro b; rfl
  | cons x xs ih =>
      intro b
      cases b with
      | nil => simp [charListLe]
      | cons y ys =>
          rw [charListLe, charListLe]
          by_cases hxy : x = y
          · subst hxy
            rw [if_pos rfl, if_pos rfl]
            exact ih ys
          · rw [if_neg hxy, if_neg (Ne.symm hxy)]
            rcases lt_trichotomy x y with h | h | h
            · simp [h]
            · exact absurd h hxy
            · simp [h]

theorem strLe_trans (a b c : String) :
    strLe a b = true → strLe b c = true → strLe a c = true :=
  charListLe_trans a.data b.data c.data

theorem strLe_total (a b : String) : (strLe a b || strLe b a) = true :=
  charListLe_total a.data b.data

/-- **C10** (implicit): the dependency record array returned by the
aggregation is sorted ascending under the name comparator, and sorting
only reorders: it is a permutation of the records in node-map encounter
order, so the output order is fixed by names rather than by traversal. -/
theorem aggregateData_sorted {γ : Type} (pkg : Pkg)
    (auditResult : Option (ToolResult AuditData))
    (npmLsResult : Option (ToolResult LsData))
    (importGraphResult : Option (ToolResult γ))
    (localeLe : String → String → Bool)
    (htrans : ∀ a b c, localeLe a b = true → localeLe b c = true →
      localeLe a c = true)
    (htotal : ∀ a b, (localeLe a b || localeLe b a) = true) :
    (aggregateDependencies pkg auditResult npmLsResult importGraphResult
        localeLe).1.Pairwise
      (fun x y => localeLe x.name y.name = true) ∧
    (aggregateDependencies pkg auditResult npmLsResult importGraphResult
        localeLe).1.Perm
      (aggregateRecords pkg (auditResult.bind ToolResult.data)
        (npmLsResult.bind ToolResult.data)) :=
  ⟨@List.sorted_mergeSort DependencyRecord
      (fun a b => localeLe a.name b.name)
      (fun a b c h1 h2 => htrans _ _ _ h1 h2)
      (fun a b => htotal _ _) _,
   List.mergeSort_perm _ _⟩

unseal List.merge List.mergeSort bfsRootCauses classifyRuntime classifyParents in
theorem aggregateData_sorted_witness :
    ((aggregateDependencies pkg8 none none
        (none : Option (ToolResult Unit)) strLe).1.Pairwise
      (fun x y => strLe x.name y.name = true) ∧
     (aggregateDependencies pkg8 none none
        (none : Option (ToolResult Unit)) strLe).1.Perm
      (aggregateRecords pkg8 none none)) ∧
    List.map DependencyRecord.name
      (aggregateDependencies pkg8 none none
        (none : Option (ToolResult Unit)) strLe).1 = ["a", "b"] :=
  ⟨aggregateData_sorted pkg8 none none (none : Option (ToolResult Unit)) strLe
     strLe_trans strLe_total,
   by decide⟩

end DepRadar
